import Mathlib

/-!
Verification of the croissant graph compiler (`python/format/src/computations.py`).

The development shallowly embeds the two-stage compiler:
`build_structure_graph` (flat node list → structure graph + entry node) and
`ComputationGraph.from_nodes` (structure graph → operation graph), together
with `get_entry_nodes`, `_check_no_duplicate`, `add_node_as_entry_node`,
`add_edge` and `ComputationGraph.check_graph`.

NetworkX `MultiDiGraph`s are embedded as a node list in insertion order
(with the per-node `parent` attribute for the structure graph) plus an edge
list in insertion order with multiplicity.  Python `dict`s that are only
read pointwise are embedded as association lists with replace-in-place
update.  Code that can raise (`KeyError` on a missing dict key,
`StopIteration` on an exhausted generator, `AttributeError` on a missing
attribute, `IndexError` on empty-list indexing) is embedded in
`Except String`.
-/

namespace Croissant

/-- Modelled from the spec: the `Source` record carried by a `Field` node
(`format.src.nodes` is not under `src/`); it exposes an ordered sequence of
path segments `reference`. -/
structure Source where
  reference : List String
deriving DecidableEq, Repr

/-- Modelled from the spec: the closed set of `Node` variants
(`format.src.nodes` is not under `src/`): `Metadata`, `FileObject`,
`FileSet`, `RecordSet`, `Field`, each with `uid` and `parent_uid`, plus the
type-specific attributes listed in the spec data model.  Nodes are frozen
records compared structurally (they are used as graph / dict keys). -/
inductive Node where
  | metadata (uid : String)
  | fileObject (uid : String) (parent_uid : Option String) (content_url : String)
      (encoding_format : String) (contained_in : List String)
  | fileSet (uid : String) (parent_uid : Option String) (encoding_format : String)
      (contained_in : List String)
  | recordSet (uid : String) (parent_uid : Option String)
  | field (uid : String) (parent_uid : Option String) (source : Option Source)
      (has_sub_fields : Bool)
deriving DecidableEq, Repr

/-- The `uid` attribute every node variant carries. -/
def Node.uid : Node → String
  | .metadata u => u
  | .fileObject u _ _ _ _ => u
  | .fileSet u _ _ _ => u
  | .recordSet u _ => u
  | .field u _ _ _ => u

/-- The `parent_uid` attribute (the dataset root `Metadata` has none). -/
def Node.parent_uid : Node → Option String
  | .metadata _ => none
  | .fileObject _ pu _ _ _ => pu
  | .fileSet _ pu _ _ => pu
  | .recordSet _ pu => pu
  | .field _ pu _ _ => pu

/-- The `contained_in` attribute of `FileObject` / `FileSet` (empty, hence
falsy, for the other variants). -/
def Node.contained_in : Node → List String
  | .fileObject _ _ _ _ cin => cin
  | .fileSet _ _ _ cin => cin
  | _ => []

/-- The optional `source` attribute of a `Field`. -/
def Node.source : Node → Option Source
  | .field _ _ s _ => s
  | _ => none

/-- Test for `isinstance(node, (FileObject, FileSet))`. -/
def Node.isFOFS : Node → Bool
  | .fileObject _ _ _ _ _ => true
  | .fileSet _ _ _ _ => true
  | _ => false

/-- Test for `isinstance(node, Field)`. -/
def Node.isField : Node → Bool
  | .field _ _ _ _ => true
  | _ => false

/-- Test for `isinstance(node, RecordSet)`. -/
def Node.isRecordSet : Node → Bool
  | .recordSet _ _ => true
  | _ => false

/-- Test for `isinstance(node, Metadata)`. -/
def Node.isMetadata : Node → Bool
  | .metadata _ => true
  | _ => false

/-- Modelled from the spec: `concatenate_uid` from `format.src.nodes` is not
under `src/`.  The spec says a `Field` source reference is a path of
identifiers whose concatenation can form another field uid (field uids look
like `R/name`), so the segments are joined with `/`. -/
def concatenateUid (reference : List String) : String :=
  String.intercalate "/" reference

/-- Association-list lookup, embedding a read `d[k]` / `k in d` on a Python
dict (keys are unique because all writes go through `aupsert`). -/
def alookup {α β : Type} [DecidableEq α] : List (α × β) → α → Option β
  | [], _ => none
  | p :: rest, a => if p.1 = a then some p.2 else alookup rest a

/-- Association-list write `d[k] = v`: replaces the binding in place when the
key is present, appends otherwise (Python dict update semantics). -/
def aupsert {α β : Type} [DecidableEq α] : List (α × β) → α → β → List (α × β)
  | [], a, b => [(a, b)]
  | p :: rest, a, b => if p.1 = a then (a, b) :: rest else p :: aupsert rest a b

/-- Order-preserving removal of duplicates, keeping first occurrences; this
is the iteration order of a NetworkX adjacency dict whose keys were inserted
at the first edge touching each neighbour. -/
def dedupAcc {α : Type} [DecidableEq α] : List α → List α → List α
  | _, [] => []
  | seen, a :: rest =>
    if a ∈ seen then dedupAcc seen rest else a :: dedupAcc (a :: seen) rest

/-- Embedding of the structure graph (`nx.MultiDiGraph` over `Node`):
`nodesL` is the node list in insertion order with the `parent` attribute
(`none` both for an absent attribute and for `parent=None`), `edges` the
edge list in insertion order with multiplicity. -/
structure SGraph where
  nodesL : List (Node × Option Node)
  edges : List (Node × Node)
deriving DecidableEq, Repr

/-- The graph's nodes in insertion order (`graph.nodes()`). -/
def SGraph.keys (g : SGraph) : List Node := g.nodesL.map Prod.fst

/-- NetworkX auto-adds missing edge endpoints without attributes. -/
def SGraph.ensureNode (g : SGraph) (n : Node) : SGraph :=
  if n ∈ g.keys then g else { g with nodesL := g.nodesL ++ [(n, none)] }

/-- Embedding of `graph.add_node(n, parent=attr)`: updates the attribute of
an existing node, otherwise appends the node. -/
def SGraph.addNodeAttr (g : SGraph) (n : Node) (attr : Option Node) : SGraph :=
  if n ∈ g.keys then
    { g with nodesL := g.nodesL.map (fun p => if p.1 = n then (n, attr) else p) }
  else { g with nodesL := g.nodesL ++ [(n, attr)] }

/-- Embedding of `graph.add_edge(u, v)` on a `MultiDiGraph`. -/
def SGraph.addEdge (g : SGraph) (u v : Node) : SGraph :=
  let g := (g.ensureNode u).ensureNode v
  { g with edges := g.edges ++ [(u, v)] }

/-- Embedding of `graph.in_degree(n)`: counts parallel edges. -/
def SGraph.inDeg (g : SGraph) (n : Node) : Nat :=
  g.edges.countP (fun e => decide (e.2 = n))

/-- Embedding of `graph.predecessors(n)`: predecessor keys in first-edge
insertion order, each once. -/
def SGraph.predecessors (g : SGraph) (n : Node) : List Node :=
  dedupAcc [] (g.edges.filterMap (fun e => if e.2 = n then some e.1 else none))

/-- Embedding of `graph.successors(n)` / `G[n]` iteration order. -/
def SGraph.successors (g : SGraph) (n : Node) : List Node :=
  dedupAcc [] (g.edges.filterMap (fun e => if e.1 = n then some e.2 else none))

/-- Embedding of `graph.nodes[n].get("parent")`: raises `KeyError` when `n`
is not a node of the graph, otherwise returns the attribute (`none` when
absent). -/
def SGraph.attrOf (g : SGraph) (n : Node) : Except String (Option Node) :=
  match g.nodesL.find? (fun p => decide (p.1 = n)) with
  | some p => .ok p.2
  | none => .error "KeyError: node not in graph"

/-- Embedding of `get_entry_nodes` (computations.py:29-35) on the structure
graph: nodes with in-degree 0, in node insertion order. -/
def getEntryNodes (g : SGraph) : List Node :=
  g.keys.filter (fun n => decide (g.inDeg n = 0))

/-- Message recorded by `_check_no_duplicate` for a repeated uid. -/
def dupMsg (uid : String) : String :=
  "Duplicate node with the same identifier: " ++ uid

/-- Message recorded by `add_edge` for a reference to an unknown node. -/
def unknownRefMsg (uid : String) : String :=
  "There is a reference to node named \"" ++ uid ++ "\", but this node doesn\x27t exist."

/-- Message recorded by `build_structure_graph` for an unresolved field source. -/
def unknownSourceMsg (uid : String) : String :=
  "Source refers to an unknown node \"" ++ uid ++ "\"."

/-- Message recorded by `build_structure_graph` when no Metadata node exists. -/
def noMetadataMsg : String := "No metadata is defined in the dataset."

/-- Message recorded by `ComputationGraph.from_nodes` for a malformed field source. -/
def wrongSourceMsg (uid : String) : String :=
  "Wrong source in node \"" ++ uid ++ "\""

/-- Embedding of `_check_no_duplicate`'s loop (computations.py:38-45): one
error per node whose uid was already seen; the mapping keeps the most
recently seen node for each uid.  The issue sink is modelled from the spec
(`format.src.errors` is not under `src/`) as an append-only accumulator. -/
def checkNoDuplicateLoop (issues : List String) (uidMap : List (String × Node)) :
    List Node → List String × List (String × Node)
  | [] => (issues, uidMap)
  | node :: rest =>
    let issues :=
      if (alookup uidMap node.uid).isSome then issues ++ [dupMsg node.uid] else issues
    checkNoDuplicateLoop issues (aupsert uidMap node.uid node) rest

/-- Embedding of `_check_no_duplicate` (computations.py:38-45). -/
def checkNoDuplicate (issues : List String) (nodes : List Node) :
    List String × List (String × Node) :=
  checkNoDuplicateLoop issues [] nodes

/-- Embedding of module-level `add_edge` (computations.py:57-69): records an
error and adds no edge when `uid` is unknown, otherwise adds the edge from
the resolved node to `node`. -/
def add_edge (issues : List String) (g : SGraph) (uidMap : List (String × Node))
    (uid : String) (node : Node) : List String × SGraph :=
  match alookup uidMap uid with
  | none => (issues ++ [unknownRefMsg uid], g)
  | some src => (issues, g.addEdge src node)

/-- Embedding of `add_node_as_entry_node` (computations.py:48-54).  The
Python loops over the current entry nodes but tests
`isinstance(node, (FileObject, FileSet))` on the node being added (the
metadata) and would add the edge as `(entry_node, node)`; the embedding
reproduces that literally. -/
def add_node_as_entry_node (g : SGraph) (node : Node) : SGraph :=
  let g := g.addNodeAttr node none
  let entry := getEntryNodes g
  entry.foldl (fun g2 en => if node.isFOFS then g2.addEdge en node else g2) g

/-- Embedding of the per-node loop of `build_structure_graph`
(computations.py:89-113).  `uid_to_node[node.parent_uid]` raises `KeyError`
when the parent uid is `None` or unknown. -/
def buildLoop (uidMap : List (String × Node)) :
    List Node → List String → SGraph → Except String (List String × SGraph)
  | [], issues, g => .ok (issues, g)
  | node :: rest, issues, g =>
    match node with
    | .metadata _ => buildLoop uidMap rest issues g
    | _ => do
      let parent ← match node.parent_uid with
        | none => Except.error "KeyError: None"
        | some pu =>
          match alookup uidMap pu with
          | some p => Except.ok p
          | none => Except.error ("KeyError: " ++ pu)
      let g := g.addNodeAttr node (some parent)
      if node.isFOFS && !node.contained_in.isEmpty then
        let acc := node.contained_in.foldl
          (fun (acc : List String × SGraph) uid => add_edge acc.1 acc.2 uidMap uid node)
          (issues, g)
        buildLoop uidMap rest acc.1 acc.2
      else if node.isField && node.source.isSome then
        match node.source with
        | some s =>
          if (alookup uidMap (concatenateUid s.reference)).isSome then
            let acc := add_edge issues g uidMap (concatenateUid s.reference) node
            buildLoop uidMap rest acc.1 acc.2
          else
            match s.reference.head? with
            | none => Except.error "IndexError: list index out of range"
            | some u0 =>
              if (alookup uidMap u0).isSome then
                let acc := add_edge issues g uidMap u0 node
                buildLoop uidMap rest acc.1 acc.2
              else
                buildLoop uidMap rest (issues ++ [unknownSourceMsg (concatenateUid s.reference)]) g
        | none => buildLoop uidMap rest issues g
      else
        match node.parent_uid with
        | some pu =>
          let acc := add_edge issues g uidMap pu node
          buildLoop uidMap rest acc.1 acc.2
        | none => buildLoop uidMap rest issues g

/-- Embedding of `build_structure_graph` (computations.py:72-122); returns
the entry metadata node (when any), the structure graph and the issue sink.
`graph.is_directed()` is always `True` for a `MultiDiGraph`, so the final
defensive check never records an error. -/
def build_structure_graph (issues : List String) (nodes : List Node) :
    Except String (Option Node × SGraph × List String) := do
  let acc := checkNoDuplicate issues nodes
  let res ← buildLoop acc.2 nodes acc.1 ⟨[], []⟩
  match nodes.find? Node.isMetadata with
  | none => .ok (none, res.2, res.1 ++ [noMetadataMsg])
  | some m => .ok (some m, add_node_as_entry_node res.2 m, res.1)

/-- Embedding of the closed set of operation records (computations.py:125-198):
the directly instantiated base class `Operation(node=...)` (the generic
extraction / merge / grouping sentinel), `InitOperation`, `Download`,
`ReadCsv`, `ReadField` and `GroupRecordSet`.  They are frozen dataclasses,
hence hashable and compared structurally. -/
inductive Operation where
  | generic (node : Node)
  | initOp (node : Node)
  | download (node : Node) (url : String)
  | readCsv (node : Node) (url : String)
  | readField (node : Node)
  | groupRecordSet (node : Node)
deriving DecidableEq, Repr

/-- Test for the `Download` variant. -/
def Operation.isDownload : Operation → Bool
  | .download _ _ => true
  | _ => false

/-- Test for the `InitOperation` variant. -/
def Operation.isInitOp : Operation → Bool
  | .initOp _ => true
  | _ => false

/-- Test for the `GroupRecordSet` variant. -/
def Operation.isGroupRecordSet : Operation → Bool
  | .groupRecordSet _ => true
  | _ => false

/-- Embedding of the operation graph (`nx.MultiDiGraph` over `Operation`);
no node attributes are ever used on it. -/
structure OGraph where
  nodesL : List Operation
  edges : List (Operation × Operation)
deriving DecidableEq, Repr

/-- Embedding of `operations.add_node(op)`. -/
def OGraph.addNodeOp (g : OGraph) (op : Operation) : OGraph :=
  if op ∈ g.nodesL then g else { g with nodesL := g.nodesL ++ [op] }

/-- Embedding of `operations.add_edge(u, v)` with endpoint auto-add. -/
def OGraph.addEdge (g : OGraph) (u v : Operation) : OGraph :=
  let g := (g.addNodeOp u).addNodeOp v
  { g with edges := g.edges ++ [(u, v)] }

/-- Embedding of `operations.in_degree(op)` (counts parallel edges). -/
def OGraph.inDeg (g : OGraph) (op : Operation) : Nat :=
  g.edges.countP (fun e => decide (e.2 = op))

/-- Embedding of `get_entry_nodes` (computations.py:29-35) applied to the
operation graph. -/
def getEntryNodesOp (g : OGraph) : List Operation :=
  g.nodesL.filter (fun op => decide (g.inDeg op = 0))

/-- State threaded through `ComputationGraph.from_nodes`: the issue sink,
the `last_operation_for_node` dict and the operation graph being built. -/
structure CState where
  issues : List String
  last : List (Node × Operation)
  ops : OGraph
deriving DecidableEq, Repr

/-- Embedding of the predecessor propagation loop (computations.py:223-228):
`last_operation_for_node[node] = last_operation_for_node[predecessor]` for
each structural predecessor already holding a last operation. -/
def propagateLast (node : Node) : List Node → List (Node × Operation) → List (Node × Operation)
  | [], last => last
  | p :: rest, last =>
    match alookup last p with
    | some op => propagateLast node rest (aupsert last node op)
    | none => propagateLast node rest last

/-- Embedding of the successor loop of the `FileObject` branch
(computations.py:256-266): for each successor `FileObject`/`FileSet` with an
encoding different from `application/x-tar` (while this node's encoding is
`application/x-tar`), chain a fresh generic `Operation(node=node)` sentinel
after the running last operation for this node. -/
def tarDiff : Node → Bool
  | .fileObject _ _ _ senc _ => decide (senc ≠ "application/x-tar")
  | .fileSet _ _ senc _ => decide (senc ≠ "application/x-tar")
  | _ => false

/-- The fold realizing the successor loop; `cur` carries
`last_operation_for_node[node]`, which only this loop touches there. -/
def tarFold (node : Node) (enc : String) :
    List Node → OGraph → Operation → OGraph × Operation
  | [], ops, cur => (ops, cur)
  | s :: rest, ops, cur =>
    if enc = "application/x-tar" ∧ tarDiff s then
      tarFold node enc rest (ops.addEdge cur (Operation.generic node)) (Operation.generic node)
    else tarFold node enc rest ops cur

/-- Embedding of the `FileSet` merge loop (computations.py:277-281):
`last_operation_for_node[source]` raises `KeyError` when a predecessor has
no recorded last operation. -/
def mergeSources (mop : Operation) :
    List Node → OGraph → List (Node × Operation) →
    Except String (OGraph × List (Node × Operation))
  | [], ops, last => .ok (ops, last)
  | p :: rest, ops, last =>
    match alookup last p with
    | none => .error "KeyError: last_operation_for_node"
    | some lop => mergeSources mop rest (ops.addEdge lop mop) (aupsert last p mop)

/-- Embedding of the body of the per-node loop of
`ComputationGraph.from_nodes` (computations.py:222-282): predecessor
propagation followed by the type-specific lowering rule. -/
def processNode (g : SGraph) (st : CState) (node : Node) : Except String CState :=
  let preds := g.predecessors node
  let last0 := propagateLast node preds st.last
  match node with
  | .field u _ (some s) false =>
    if s.reference.length ≠ 2 then
      .ok ⟨st.issues ++ [wrongSourceMsg u], last0, st.ops⟩
    else
      match preds.head? with
      | none => .error "StopIteration"
      | some pred =>
        match alookup last0 pred with
        | none => .error "KeyError: last_operation_for_node"
        | some lop => do
          let operation := Operation.readField node
          let ops1 := st.ops.addEdge lop operation
          let last1 := aupsert last0 node operation
          let pn0 ← g.attrOf node
          match pn0 with
          | some p =>
            if p.isField then do
              let nop := Operation.generic p
              let ops2 := ops1.addEdge operation nop
              let last2 := aupsert last1 p nop
              let pn1 ← g.attrOf p
              match pn1 with
              | some r =>
                if r.isRecordSet then
                  let gop := Operation.groupRecordSet r
                  .ok ⟨st.issues, aupsert last2 r gop, ops2.addEdge nop gop⟩
                else .ok ⟨st.issues, last2, ops2⟩
              | none => .ok ⟨st.issues, last2, ops2⟩
            else if p.isRecordSet then
              let gop := Operation.groupRecordSet p
              .ok ⟨st.issues, aupsert last1 p gop, ops1.addEdge operation gop⟩
            else .ok ⟨st.issues, last1, ops1⟩
          | none => .ok ⟨st.issues, last1, ops1⟩
  | .fileObject _ _ url enc _ =>
    let dop := Operation.download node url
    let ops1 := st.ops.addNodeOp dop
    let last1 := aupsert last0 node dop
    let fr := tarFold node enc (g.successors node) ops1 dop
    let last2 := aupsert last1 node fr.2
    if enc = "text/csv" then
      let rop := Operation.readCsv node url
      .ok ⟨st.issues, aupsert last2 node rop, fr.1.addEdge fr.2 rop⟩
    else .ok ⟨st.issues, last2, fr.1⟩
  | .fileSet _ _ _ cin =>
    if cin.isEmpty then .ok ⟨st.issues, last0, st.ops⟩
    else do
      let mop := Operation.generic node
      let ml ← mergeSources mop preds st.ops last0
      .ok ⟨st.issues, aupsert ml.2 node mop, ml.1⟩
  | .field _ _ _ _ => .ok ⟨st.issues, last0, st.ops⟩
  | .metadata _ => .ok ⟨st.issues, last0, st.ops⟩
  | .recordSet _ _ => .ok ⟨st.issues, last0, st.ops⟩

/-- Sequential processing of the BFS node order (the nested
`for layer in nx.bfs_layers(...)` / `for node in layer` loops). -/
def processList (g : SGraph) : CState → List Node → Except String CState
  | st, [] => .ok st
  | st, n :: rest =>
    match processNode g st n with
    | .error e => .error e
    | .ok st' => processList g st' rest

/-- One BFS round: collects the unvisited successors of the current layer in
adjacency order, extending the visited set (`nx.bfs_layers` internals). -/
def bfsStep (g : SGraph) : List Node → List Node → List Node → List Node × List Node
  | visited, next, [] => (visited, next)
  | visited, next, n :: rest =>
    let acc := (g.successors n).foldl
      (fun (acc : List Node × List Node) c =>
        if c ∈ acc.1 then acc else (c :: acc.1, acc.2 ++ [c]))
      (visited, next)
    bfsStep g acc.1 acc.2 rest

/-- Fuel-bounded BFS layering; the fuel `|nodes| + 1` dominates the layer
count, every nonempty layer holding at least one newly visited node. -/
def bfsLayersAux (g : SGraph) : Nat → List Node → List Node → List (List Node)
  | 0, _, _ => []
  | fuel + 1, visited, current =>
    if current.isEmpty then []
    else
      let vn := bfsStep g visited [] current
      current :: bfsLayersAux g fuel vn.1 vn.2

/-- Embedding of `nx.bfs_layers(graph, source)`. -/
def bfsLayers (g : SGraph) (source : Node) : List (List Node) :=
  bfsLayersAux g (g.nodesL.length + 1) [source] [source]

/-- The node processing order of `from_nodes`: the BFS layers, flattened. -/
def bfsOrder (g : SGraph) (source : Node) : List Node :=
  (bfsLayers g source).flatten

/-- Embedding of the final attach step (computations.py:284-288): one edge
from a fresh `InitOperation` to every operation that currently has
in-degree 0.  When there is no such operation the init operation is never
added to the graph. -/
def attachInit (iop : Operation) (ops : OGraph) : OGraph :=
  (getEntryNodesOp ops).foldl (fun g e => g.addEdge iop e) ops

/-- Embedding of the `ComputationGraph` frozen dataclass (computations.py:200-205). -/
structure ComputationGraph where
  issues : List String
  graph : OGraph
deriving DecidableEq, Repr

/-- Embedding of `ComputationGraph.from_nodes` (computations.py:207-290).
`nx.bfs_layers` raises `NodeNotFound` when the source is not in the graph. -/
def fromNodes (issues : List String) (metadata : Node) (graph : SGraph) :
    Except String ComputationGraph :=
  if metadata ∈ graph.keys then do
    let st ← processList graph ⟨issues, [], ⟨[], []⟩⟩ (bfsOrder graph metadata)
    .ok ⟨st.issues, attachInit (Operation.initOp metadata) st.ops⟩
  else .error "NodeNotFound"

/-- Embedding of the attribute access `operation.uid` performed by
`check_graph` (computations.py:296).  The frozen dataclasses
`Operation`, `InitOperation`, `Download`, `ReadCsv`, `ReadField` and
`GroupRecordSet` define only the fields `node` (and `url`), never `uid`, so
the access raises `AttributeError` for every variant. -/
def operationUid : Operation → Except String String
  | .generic _ => .error "AttributeError: \x27Operation\x27 object has no attribute \x27uid\x27"
  | .initOp _ => .error "AttributeError: \x27InitOperation\x27 object has no attribute \x27uid\x27"
  | .download _ _ => .error "AttributeError: \x27Download\x27 object has no attribute \x27uid\x27"
  | .readCsv _ _ => .error "AttributeError: \x27ReadCsv\x27 object has no attribute \x27uid\x27"
  | .readField _ => .error "AttributeError: \x27ReadField\x27 object has no attribute \x27uid\x27"
  | .groupRecordSet _ => .error "AttributeError: \x27GroupRecordSet\x27 object has no attribute \x27uid\x27"

/-- Embedding of `ComputationGraph.check_graph` (computations.py:292-300):
`is_directed()` is always `True`, then the self-loop list comprehension
evaluates `operation.uid` on each self-loop edge source before the emptiness
test, so it raises as soon as one self-loop exists.  Returns the resulting
issue sink. -/
def ComputationGraph.check_graph (cg : ComputationGraph) : Except String (List String) := do
  let selfloops ← (cg.graph.edges.filter (fun e => decide (e.1 = e.2))).mapM
    (fun e => operationUid e.1)
  if selfloops.isEmpty then .ok cg.issues
  else
    .ok (cg.issues ++
      ["The following operations refered to themselves: " ++ String.intercalate ", " selfloops])

/-! Concrete scenario fixtures. -/

/-- The dataset root of the end-to-end scenario. -/
def nodeM : Node := .metadata "M"

/-- The CSV file object of the end-to-end scenario. -/
def nodeF : Node := .fileObject "F" (some "M") "http://x/data.csv" "text/csv" []

/-- The record set of the end-to-end scenario. -/
def nodeR : Node := .recordSet "R" (some "M")

/-- The leaf field of the end-to-end scenario. -/
def nodeRname : Node := .field "R/name" (some "R") (some ⟨["F", "col"]⟩) false

/-- The input node list of the end-to-end scenario. -/
def c1nodes : List Node := [nodeM, nodeF, nodeR, nodeRname]

/-- The structure graph `build_structure_graph` produces for `c1nodes`. -/
def c1graph : SGraph :=
  ⟨[(nodeF, some nodeM), (nodeM, none), (nodeR, some nodeM), (nodeRname, some nodeR)],
   [(nodeM, nodeF), (nodeM, nodeR), (nodeF, nodeRname)]⟩

/-- The operation graph compiled from `c1graph`. -/
def c1ops : OGraph :=
  ⟨[.download nodeF "http://x/data.csv", .readCsv nodeF "http://x/data.csv",
    .readField nodeRname, .groupRecordSet nodeR, .initOp nodeM],
   [(.download nodeF "http://x/data.csv", .readCsv nodeF "http://x/data.csv"),
    (.readCsv nodeF "http://x/data.csv", .readField nodeRname),
    (.readField nodeRname, .groupRecordSet nodeR),
    (.initOp nodeM, .download nodeF "http://x/data.csv")]⟩

/-- A FileObject whose `contained_in` references an unknown uid, hence a
node that keeps in-degree 0 in the structure graph. -/
def c3orphan : Node := .fileObject "F" (some "M") "u" "text/csv" ["X"]

/-- A tar archive FileObject. -/
def fTar : Node := .fileObject "F" (some "M") "u" "application/x-tar" []

/-- A CSV FileObject contained in the tar archive `fTar`. -/
def gCsv : Node := .fileObject "G" (some "M") "v" "text/csv" ["F"]

/-- The structure graph for `[nodeM, fTar, gCsv]`. -/
def c7graph : SGraph :=
  ⟨[(fTar, some nodeM), (nodeM, none), (gCsv, some nodeM)],
   [(nodeM, fTar), (fTar, gCsv)]⟩

/-- The operation graph compiled from `c7graph`. -/
def c7ops : OGraph :=
  ⟨[.download fTar "u", .generic fTar, .download gCsv "v", .readCsv gCsv "v", .initOp nodeM],
   [(.download fTar "u", .generic fTar),
    (.download gCsv "v", .readCsv gCsv "v"),
    (.initOp nodeM, .download fTar "u"),
    (.initOp nodeM, .download gCsv "v")]⟩

/-- A nested field group directly under the record set `nodeR`. -/
def fieldQ : Node := .field "R/q" (some "R") none true

/-- A second nested field group, under `fieldQ`. -/
def fieldP : Node := .field "R/q/p" (some "R/q") none true

/-- A leaf field whose structural parent chain is two Fields then a RecordSet. -/
def fieldLeaf : Node := .field "R/q/p/f" (some "R/q/p") (some ⟨["F", "col"]⟩) false

/-- The input node list with a two-deep nested field group. -/
def c8nodes : List Node := [nodeM, nodeF, nodeR, fieldQ, fieldP, fieldLeaf]

/-- The structure graph `build_structure_graph` produces for `c8nodes`. -/
def c8graph : SGraph :=
  ⟨[(nodeF, some nodeM), (nodeM, none), (nodeR, some nodeM), (fieldQ, some nodeR),
    (fieldP, some fieldQ), (fieldLeaf, some fieldP)],
   [(nodeM, nodeF), (nodeM, nodeR), (nodeR, fieldQ), (fieldQ, fieldP), (nodeF, fieldLeaf)]⟩

/-- The operation graph compiled from `c8graph`: the upward walk stops after
one Field ancestor, so no `GroupRecordSet` is ever created. -/
def c8ops : OGraph :=
  ⟨[.download nodeF "http://x/data.csv", .readCsv nodeF "http://x/data.csv",
    .readField fieldLeaf, .generic fieldP, .initOp nodeM],
   [(.download nodeF "http://x/data.csv", .readCsv nodeF "http://x/data.csv"),
    (.readCsv nodeF "http://x/data.csv", .readField fieldLeaf),
    (.readField fieldLeaf, .generic fieldP),
    (.initOp nodeM, .download nodeF "http://x/data.csv")]⟩

/-- An arbitrary operation used as a self-looping node for `check_graph`. -/
def opX : Operation := .generic (Node.recordSet "X" none)

/-! Claim theorems. -/

/-- C1: on the node list `[Metadata M, FileObject F (csv), RecordSet R,
Field R/name (source [F, col])]`, `build_structure_graph` followed by
`ComputationGraph.from_nodes` produces exactly the chain
`Init(M) → Download(F) → ReadCsv(F) → ReadField(R/name) → GroupRecordSet(R)`
(the spec's `ReadTable` is the source's `ReadCsv`) and records zero errors
on the issue sink. -/
theorem c1_end_to_end :
    build_structure_graph [] c1nodes = .ok (some nodeM, c1graph, []) ∧
    fromNodes [] nodeM c1graph = .ok ⟨[], c1ops⟩ := by
  exact ⟨by rfl, by rfl⟩

/-- C3: the claim fails on the code and the spec is clearly the intent.
`add_node_as_entry_node` tests `isinstance(node, (FileObject, FileSet))` on
the metadata node being added instead of on each entry node (and would even
orient the edge towards the metadata), so no anchoring edge is ever added:
on `[Metadata M, FileObject F (contained_in [X] unknown)]` the returned
structure graph has no edges at all and both `F` and `M` have in-degree 0,
contradicting the claimed invariant that the metadata entry node is the only
node with in-degree 0. -/
theorem c3_no_anchoring_edges :
    build_structure_graph [] [nodeM, c3orphan] =
      .ok (some nodeM, ⟨[(c3orphan, some nodeM), (nodeM, none)], []⟩, [unknownRefMsg "X"]) ∧
    getEntryNodes ⟨[(c3orphan, some nodeM), (nodeM, none)], []⟩ = [c3orphan, nodeM] := by
  exact ⟨by rfl, by rfl⟩

/-- C4: the claim fails on the code and the spec is clearly the intent
(the sibling helper `add_edge` shows the guarded pattern).  For a
non-Metadata node whose `parent_uid` names no known node, line 92
`uid_to_node[node.parent_uid]` raises `KeyError` instead of recording a
diagnostic and returning a best-effort graph. -/
theorem c4_keyerror_on_unknown_parent :
    build_structure_graph [] [nodeM, Node.recordSet "R" (some "Z")] =
      .error "KeyError: Z" := by
  rfl

/-- C9: the claim fails on the code and the spec is clearly the intent
(`__repr__` uses the correct `self.node.uid`).  On a graph with a self-loop
edge, `check_graph` evaluates `operation.uid`, an attribute no operation
dataclass defines, so it raises `AttributeError` instead of recording a
self-loop error and returning normally. -/
theorem c9_attribute_error_on_selfloop :
    ComputationGraph.check_graph ⟨[], ⟨[opX], [(opX, opX)]⟩⟩ =
      .error "AttributeError: \x27Operation\x27 object has no attribute \x27uid\x27" := by
  rfl

/-- C2 counterexample: on the structure graph built from `[Metadata M]`
alone, `from_nodes` returns an empty operation graph: no operation at all
has in-degree 0 and no `Init` operation exists, refuting the claim for
arbitrary structure graphs. -/
theorem c2_counterexample :
    build_structure_graph [] [nodeM] = .ok (some nodeM, ⟨[(nodeM, none)], []⟩, []) ∧
    fromNodes [] nodeM ⟨[(nodeM, none)], []⟩ = .ok ⟨[], ⟨[], []⟩⟩ ∧
    getEntryNodesOp ⟨[], []⟩ = [] ∧
    Operation.initOp nodeM ∉ (⟨[], []⟩ : OGraph).nodesL := by
  refine ⟨by rfl, by rfl, by rfl, by decide⟩

/-- C7 counterexample: for the tar FileObject `F` with the qualifying
successor FileObject `G`, the compiled graph contains
`Download(F) → sentinel(F)` but the sentinel has no outgoing edge at all; in
particular there is no edge to `G`'s first operation `Download(G)` (which is
created as a fresh root and anchored to `Init` directly), refuting the
claimed chain for FileObject successors. -/
theorem c7_counterexample :
    build_structure_graph [] [nodeM, fTar, gCsv] = .ok (some nodeM, c7graph, []) ∧
    fromNodes [] nodeM c7graph = .ok ⟨[], c7ops⟩ ∧
    (Operation.generic fTar, Operation.download gCsv "v") ∉ c7ops.edges ∧
    (∀ e ∈ c7ops.edges, e.1 ≠ Operation.generic fTar) := by
  refine ⟨by rfl, by rfl, by decide, by decide⟩

/-- C8 counterexample: for the leaf field `R/q/p/f` whose structural parent
chain is `Field R/q/p → Field R/q → RecordSet R`, the compiled operation
graph contains a grouping operation only for the first Field ancestor and no
`GroupRecordSet` operation at all (the upward walk is a single `if`, not a
loop), refuting the claim for chains with two or more Field ancestors. -/
theorem c8_counterexample :
    build_structure_graph [] c8nodes = .ok (some nodeM, c8graph, []) ∧
    fromNodes [] nodeM c8graph = .ok ⟨[], c8ops⟩ ∧
    (∀ op ∈ c8ops.nodesL, op.isGroupRecordSet = false) := by
  refine ⟨by rfl, by rfl, by decide⟩

/-! Association-list lemmas and the duplicate-uid analysis (C5). -/

lemma alookup_aupsert_self {α β : Type} [DecidableEq α] (m : List (α × β)) (a : α) (b : β) :
    alookup (aupsert m a b) a = some b := by
  induction m with
  | nil => simp [aupsert, alookup]
  | cons p rest ih =>
    by_cases h : p.1 = a <;> simp [aupsert, alookup, h, ih]

lemma alookup_aupsert_ne {α β : Type} [DecidableEq α] (m : List (α × β)) (a c : α) (b : β)
    (h : c ≠ a) : alookup (aupsert m a b) c = alookup m c := by
  have h' : a ≠ c := Ne.symm h
  induction m with
  | nil => simp [aupsert, alookup, h']
  | cons p rest ih =>
    by_cases hp : p.1 = a
    · subst hp
      simp [aupsert, alookup, Ne.symm h]
    · by_cases hc : p.1 = c <;> simp [aupsert, alookup, hp, hc, ih, h]

lemma checkNoDuplicateLoop_append (issues : List String) (m : List (String × Node))
    (a b : List Node) :
    checkNoDuplicateLoop issues m (a ++ b) =
      checkNoDuplicateLoop (checkNoDuplicateLoop issues m a).1
        (checkNoDuplicateLoop issues m a).2 b := by
  induction a generalizing issues m with
  | nil => simp [checkNoDuplicateLoop]
  | cons n rest ih => simp [checkNoDuplicateLoop, ih]

/-- Processing a run of nodes whose uids collide neither with the map so far
nor with each other records no error; afterwards each such node is found
under its uid and other uids resolve as before. -/
lemma checkNoDuplicateLoop_clean :
    ∀ (l : List Node) (issues : List String) (m : List (String × Node)),
      (∀ n ∈ l, alookup m n.uid = none) → (l.map Node.uid).Nodup →
      (checkNoDuplicateLoop issues m l).1 = issues ∧
      (∀ a, a ∉ l.map Node.uid →
        alookup (checkNoDuplicateLoop issues m l).2 a = alookup m a) ∧
      (∀ x ∈ l, alookup (checkNoDuplicateLoop issues m l).2 x.uid = some x) := by
  intro l
  induction l with
  | nil => intro issues m _ _; refine ⟨rfl, fun a _ => rfl, by simp⟩
  | cons n rest ih =>
    intro issues m habs hnd
    have hn : alookup m n.uid = none := habs n (by simp)
    have hnd0 : n.uid ∉ rest.map Node.uid ∧ (rest.map Node.uid).Nodup := by
      rw [List.map_cons, List.nodup_cons] at hnd
      exact hnd
    have hnd1 := hnd0.1
    have hnd2 := hnd0.2
    have habs' : ∀ k ∈ rest, alookup (aupsert m n.uid n) k.uid = none := by
      intro k hk
      have hne : k.uid ≠ n.uid := by
        intro he
        exact hnd1 (he ▸ List.mem_map_of_mem Node.uid hk)
      rw [alookup_aupsert_ne m n.uid k.uid n hne]
      exact habs k (by simp [hk])
    have step :
        checkNoDuplicateLoop issues m (n :: rest) =
          checkNoDuplicateLoop issues (aupsert m n.uid n) rest := by
      simp [checkNoDuplicateLoop, hn]
    obtain ⟨ih1, ih2, ih3⟩ := ih issues (aupsert m n.uid n) habs' hnd2
    refine ⟨by rw [step]; exact ih1, ?_, ?_⟩
    · intro a ha
      have ha1 : a ≠ n.uid := by simp at ha; exact ha.1
      have ha2 : a ∉ rest.map Node.uid := by simp at ha; simpa using ha.2
      rw [step, ih2 a ha2, alookup_aupsert_ne m n.uid a n ha1]
    · intro x hx
      rcases List.mem_cons.mp hx with hx | hx
      · subst hx
        rw [step, ih2 x.uid hnd1, alookup_aupsert_self]
      · rw [step]; exact ih3 x hx

/-- C5: for a node list in which exactly two nodes `x` (earlier) and `y`
(later) share a uid — formalized as `l1 ++ x :: l2 ++ y :: l3` with
`x.uid = y.uid` and all uids distinct once `y` is removed —
`_check_no_duplicate` records exactly one duplicate-identifier error, and
the resulting uid-to-node mapping resolves that uid to the later-seen node
`y`. -/
theorem c5_duplicate_last_wins (l1 l2 l3 : List Node) (x y : Node) (issues : List String)
    (hxy : x.uid = y.uid)
    (hnd : ((l1 ++ x :: (l2 ++ l3)).map Node.uid).Nodup) :
    (checkNoDuplicate issues (l1 ++ x :: (l2 ++ y :: l3))).1 = issues ++ [dupMsg x.uid] ∧
    alookup (checkNoDuplicate issues (l1 ++ x :: (l2 ++ y :: l3))).2 x.uid = some y := by
  rw [List.map_append, List.map_cons, List.map_append] at hnd
  obtain ⟨hl1, hrest, hdisj⟩ := List.nodup_append.mp hnd
  obtain ⟨hx23, h23⟩ := List.nodup_cons.mp hrest
  obtain ⟨hl2, hl3, hd23⟩ := List.nodup_append.mp h23
  have hx2 : x.uid ∉ l2.map Node.uid := fun h => hx23 (List.mem_append_left _ h)
  have hx3 : x.uid ∉ l3.map Node.uid := fun h => hx23 (List.mem_append_right _ h)
  have hd1x : x.uid ∉ l1.map Node.uid := fun h => hdisj h (List.mem_cons_self _ _)
  have hd12 : ∀ u ∈ l2.map Node.uid, u ∉ l1.map Node.uid := fun u hu h1 =>
    hdisj h1 (List.mem_cons_of_mem _ (List.mem_append_left _ hu))
  have hd13 : ∀ u ∈ l3.map Node.uid, u ∉ l1.map Node.uid := fun u hu h1 =>
    hdisj h1 (List.mem_cons_of_mem _ (List.mem_append_right _ hu))
  -- stage 1: the clean run l1 over the empty map
  obtain ⟨s1a, s1b, _⟩ :=
    checkNoDuplicateLoop_clean l1 issues [] (by intro n _; rfl) hl1
  set r1 := checkNoDuplicateLoop issues [] l1 with hr1
  -- stage 2: processing x records no error
  have hx_lookup : alookup r1.2 x.uid = none := by
    rw [s1b x.uid hd1x]; rfl
  have step2 :
      checkNoDuplicateLoop r1.1 r1.2 (x :: (l2 ++ y :: l3)) =
        checkNoDuplicateLoop r1.1 (aupsert r1.2 x.uid x) (l2 ++ y :: l3) := by
    simp [checkNoDuplicateLoop, hx_lookup]
  -- stage 3: the clean run l2
  have habs2 : ∀ n ∈ l2, alookup (aupsert r1.2 x.uid x) n.uid = none := by
    intro n hn
    have hne : n.uid ≠ x.uid := by
      intro he
      exact hx2 (he ▸ List.mem_map_of_mem Node.uid hn)
    rw [alookup_aupsert_ne _ _ _ _ hne, s1b n.uid (hd12 n.uid (List.mem_map_of_mem Node.uid hn))]
    rfl
  obtain ⟨s3a, s3b, _⟩ := checkNoDuplicateLoop_clean l2 r1.1 (aupsert r1.2 x.uid x) habs2 hl2
  set r3 := checkNoDuplicateLoop r1.1 (aupsert r1.2 x.uid x) l2 with hr3
  -- stage 4: processing y records exactly one duplicate error
  have hy_lookup : alookup r3.2 y.uid = some x := by
    rw [← hxy, s3b x.uid hx2, alookup_aupsert_self]
  have step4 :
      checkNoDuplicateLoop r3.1 r3.2 (y :: l3) =
        checkNoDuplicateLoop (r3.1 ++ [dupMsg y.uid]) (aupsert r3.2 y.uid y) l3 := by
    simp [checkNoDuplicateLoop, hy_lookup]
  -- stage 5: the clean run l3
  have habs3 : ∀ n ∈ l3, alookup (aupsert r3.2 y.uid y) n.uid = none := by
    intro n hn
    have hne : n.uid ≠ y.uid := by
      intro he
      exact hx3 ((he.trans hxy.symm) ▸ List.mem_map_of_mem Node.uid hn)
    have hne2 : n.uid ≠ x.uid := fun he => hne (he.trans hxy)
    have hn2 : n.uid ∉ l2.map Node.uid :=
      fun h => hd23 h (List.mem_map_of_mem Node.uid hn)
    rw [alookup_aupsert_ne _ _ _ _ hne, s3b n.uid hn2,
      alookup_aupsert_ne _ _ _ _ hne2,
      s1b n.uid (hd13 n.uid (List.mem_map_of_mem Node.uid hn))]
    rfl
  obtain ⟨s5a, s5b, _⟩ :=
    checkNoDuplicateLoop_clean l3 (r3.1 ++ [dupMsg y.uid]) (aupsert r3.2 y.uid y) habs3 hl3
  -- assemble
  have expand :
      checkNoDuplicate issues (l1 ++ x :: (l2 ++ y :: l3)) =
        checkNoDuplicateLoop (r3.1 ++ [dupMsg y.uid]) (aupsert r3.2 y.uid y) l3 := by
    rw [checkNoDuplicate, checkNoDuplicateLoop_append, ← hr1, step2,
      checkNoDuplicateLoop_append, ← hr3, step4]
  constructor
  · rw [expand, s5a, s3a, s1a, hxy]
  · have hx3' : x.uid ∉ l3.map Node.uid := hx3
    rw [expand, s5b x.uid hx3', hxy, alookup_aupsert_self]

/-- C5 witness: on `[Metadata M, RecordSet D, Field D]` exactly one
duplicate error for uid `D` is recorded and the mapping resolves `D` to the
later-seen Field node. -/
theorem c5_witness :
    (checkNoDuplicate []
        [Node.metadata "M", Node.recordSet "D" (some "M"),
         Node.field "D" (some "M") none false]).1 = [dupMsg "D"] ∧
    alookup (checkNoDuplicate []
        [Node.metadata "M", Node.recordSet "D" (some "M"),
         Node.field "D" (some "M") none false]).2 "D" =
      some (Node.field "D" (some "M") none false) := by
  have h := c5_duplicate_last_wins [Node.metadata "M"] [] []
    (Node.recordSet "D" (some "M")) (Node.field "D" (some "M") none false) []
    (by decide) (by decide)
  simpa using h

/-- C6: for every structure graph, compiler state and leaf Field (a source,
no sub-fields) whose source reference length is not 2, the lowering step
records exactly one malformed-source error, emits no operation (the
operation graph is unchanged; only the predecessor propagation touches the
last-operation map), and processing continues with the remaining nodes
exactly as it would from the updated state, so sibling fields still compile
to their operations. -/
theorem c6_malformed_source_skipped (g : SGraph) (st : CState) (u : String)
    (pu : Option String) (s : Source) (rest : List Node)
    (hlen : s.reference.length ≠ 2) :
    processNode g st (Node.field u pu (some s) false) =
      .ok ⟨st.issues ++ [wrongSourceMsg u],
        propagateLast (Node.field u pu (some s) false)
          (g.predecessors (Node.field u pu (some s) false)) st.last, st.ops⟩ ∧
    processList g st (Node.field u pu (some s) false :: rest) =
      processList g
        ⟨st.issues ++ [wrongSourceMsg u],
          propagateLast (Node.field u pu (some s) false)
            (g.predecessors (Node.field u pu (some s) false)) st.last, st.ops⟩ rest := by
  have h1 : processNode g st (Node.field u pu (some s) false) =
      .ok ⟨st.issues ++ [wrongSourceMsg u],
        propagateLast (Node.field u pu (some s) false)
          (g.predecessors (Node.field u pu (some s) false)) st.last, st.ops⟩ := by
    simp [processNode, hlen]
  exact ⟨h1, by simp [processList, h1]⟩

/-- C6 witness: processing the length-1-source field `R/bad` from the empty
state records exactly the one error and leaves the operation graph empty. -/
theorem c6_witness :
    processNode ⟨[], []⟩ ⟨[], [], ⟨[], []⟩⟩ (Node.field "R/bad" (some "R") (some ⟨["F"]⟩) false) =
      .ok ⟨[wrongSourceMsg "R/bad"], [], ⟨[], []⟩⟩ := by
  exact (c6_malformed_source_skipped ⟨[], []⟩ ⟨[], [], ⟨[], []⟩⟩ "R/bad" (some "R")
    ⟨["F"]⟩ [] (by decide)).1

/-- A node satisfying `isField` satisfies neither `isRecordSet` nor `isFOFS`. -/
lemma isField_cases (n : Node) (h : n.isField = true) :
    n.isRecordSet = false ∧ n.isFOFS = false := by
  cases n <;> simp_all [Node.isField, Node.isRecordSet, Node.isFOFS]

/-- A node satisfying `isRecordSet` does not satisfy `isField`. -/
lemma isRecordSet_not_isField (n : Node) (h : n.isRecordSet = true) :
    n.isField = false := by
  cases n <;> simp_all [Node.isField, Node.isRecordSet]

/-- C8 as amended: for a leaf Field with a well-formed (length-2) source,
one resolvable chaining predecessor, and structural parent attribute chain
(a) a RecordSet: `ReadField` is chained after the predecessor's last
operation and a `GroupRecordSet` after it, recorded as the RecordSet's last
operation; (b) one Field ancestor whose parent is a RecordSet: one generic
grouping operation is chained between `ReadField` and the `GroupRecordSet`;
(c) two Field ancestors: only the first ancestor receives a generic grouping
operation and no `GroupRecordSet` is created — the upward walk does not
continue. -/
theorem c8_amended (g : SGraph) (st : CState) (u : String) (pu : Option String)
    (s : Source) (f : Node) (pred : Node) (lop : Operation)
    (hs : s.reference.length = 2)
    (hf : f = Node.field u pu (some s) false)
    (hpred : (g.predecessors f).head? = some pred)
    (hlop : alookup (propagateLast f (g.predecessors f) st.last) pred = some lop) :
    (∀ r, g.attrOf f = .ok (some r) → r.isRecordSet = true →
      processNode g st f = .ok ⟨st.issues,
        aupsert (aupsert (propagateLast f (g.predecessors f) st.last) f
          (Operation.readField f)) r (Operation.groupRecordSet r),
        (st.ops.addEdge lop (Operation.readField f)).addEdge (Operation.readField f)
          (Operation.groupRecordSet r)⟩ ∧
      alookup (aupsert (aupsert (propagateLast f (g.predecessors f) st.last) f
          (Operation.readField f)) r (Operation.groupRecordSet r)) r =
        some (Operation.groupRecordSet r)) ∧
    (∀ p r, g.attrOf f = .ok (some p) → p.isField = true →
      g.attrOf p = .ok (some r) → r.isRecordSet = true →
      processNode g st f = .ok ⟨st.issues,
        aupsert (aupsert (aupsert (propagateLast f (g.predecessors f) st.last) f
          (Operation.readField f)) p (Operation.generic p)) r (Operation.groupRecordSet r),
        ((st.ops.addEdge lop (Operation.readField f)).addEdge (Operation.readField f)
          (Operation.generic p)).addEdge (Operation.generic p) (Operation.groupRecordSet r)⟩ ∧
      alookup (aupsert (aupsert (aupsert (propagateLast f (g.predecessors f) st.last) f
          (Operation.readField f)) p (Operation.generic p)) r (Operation.groupRecordSet r)) r =
        some (Operation.groupRecordSet r)) ∧
    (∀ p q, g.attrOf f = .ok (some p) → p.isField = true →
      g.attrOf p = .ok (some q) → q.isField = true →
      processNode g st f = .ok ⟨st.issues,
        aupsert (aupsert (propagateLast f (g.predecessors f) st.last) f
          (Operation.readField f)) p (Operation.generic p),
        (st.ops.addEdge lop (Operation.readField f)).addEdge (Operation.readField f)
          (Operation.generic p)⟩) := by
  subst hf
  refine ⟨?_, ?_, ?_⟩
  · intro r hA hR
    have hRF := isRecordSet_not_isField r hR
    constructor
    · simp [processNode, hs, hpred, hlop, hA, hRF, hR, bind, Except.bind]
    · exact alookup_aupsert_self _ _ _
  · intro p r hA hPF hB hR
    constructor
    · simp [processNode, hs, hpred, hlop, hA, hPF, hB, hR, bind, Except.bind]
    · exact alookup_aupsert_self _ _ _
  · intro p q hA hPF hB hQF
    have hQR := (isField_cases q hQF).1
    simp [processNode, hs, hpred, hlop, hA, hPF, hB, hQR, bind, Except.bind]

/-! Base lemmas on the operation graph and the association maps. -/

lemma alookup_mem {α β : Type} [DecidableEq α] (m : List (α × β)) (a : α) (b : β)
    (h : alookup m a = some b) : (a, b) ∈ m := by
  induction m with
  | nil => simp [alookup] at h
  | cons p rest ih =>
    obtain ⟨p1, p2⟩ := p
    by_cases hp : p1 = a
    · simp only [alookup, hp, if_pos] at h
      simp only [Option.some.injEq] at h
      subst hp
      subst h
      exact List.mem_cons_self _ _
    · simp only [alookup, hp, if_neg, if_false] at h
      exact List.mem_cons_of_mem _ (ih h)

lemma aupsert_forall {α β : Type} [DecidableEq α] {P : β → Prop} (m : List (α × β))
    (a : α) (b : β) (hm : ∀ p ∈ m, P p.2) (hb : P b) :
    ∀ p ∈ aupsert m a b, P p.2 := by
  induction m with
  | nil => simp [aupsert]; exact hb
  | cons q rest ih =>
    intro p hp
    by_cases hq : q.1 = a
    · simp [aupsert, hq] at hp
      rcases hp with hp | hp
      · rw [hp]; exact hb
      · exact hm p (List.mem_cons_of_mem _ hp)
    · simp only [aupsert, hq, if_false] at hp
      rcases List.mem_cons.mp hp with hp | hp
      · rw [hp]; exact hm q (by simp)
      · exact ih (fun r hr => hm r (List.mem_cons_of_mem _ hr)) p hp

lemma alookup_isSome_aupsert {α β : Type} [DecidableEq α] (m : List (α × β)) (a c : α)
    (b : β) (h : (alookup m c).isSome) : (alookup (aupsert m a b) c).isSome := by
  by_cases hc : c = a
  · subst hc; rw [alookup_aupsert_self]; rfl
  · rw [alookup_aupsert_ne _ _ _ _ hc]; exact h

lemma dedupAcc_nodup {α : Type} [DecidableEq α] :
    ∀ (l seen : List α), (dedupAcc seen l).Nodup ∧ ∀ a ∈ dedupAcc seen l, a ∉ seen := by
  intro l
  induction l with
  | nil => intro seen; simp [dedupAcc]
  | cons a rest ih =>
    intro seen
    by_cases ha : a ∈ seen
    · simpa [dedupAcc, ha] using ih seen
    · obtain ⟨ihn, ihs⟩ := ih (a :: seen)
      refine ⟨?_, ?_⟩
      · simp only [dedupAcc, ha, if_false]
        refine List.nodup_cons.mpr ⟨?_, ihn⟩
        intro hmem
        exact ihs a hmem (by simp)
      · intro b hb
        simp only [dedupAcc, ha, if_false] at hb
        rcases List.mem_cons.mp hb with hb | hb
        · rw [hb]; exact ha
        · intro hbs
          exact ihs b hb (List.mem_cons_of_mem _ hbs)

lemma addNodeOp_edges (g : OGraph) (op : Operation) : (g.addNodeOp op).edges = g.edges := by
  unfold OGraph.addNodeOp
  split <;> rfl

lemma addNodeOp_nodes_mono (g : OGraph) (op : Operation) :
    ∀ x ∈ g.nodesL, x ∈ (g.addNodeOp op).nodesL := by
  intro x hx
  unfold OGraph.addNodeOp
  split
  · exact hx
  · simp [hx]

lemma addNodeOp_mem (g : OGraph) (op : Operation) : op ∈ (g.addNodeOp op).nodesL := by
  unfold OGraph.addNodeOp
  split
  · assumption
  · simp

lemma addEdge_edges (g : OGraph) (u v : Operation) :
    (g.addEdge u v).edges = g.edges ++ [(u, v)] := by
  show ((g.addNodeOp u).addNodeOp v).edges ++ [(u, v)] = g.edges ++ [(u, v)]
  rw [addNodeOp_edges, addNodeOp_edges]

lemma addEdge_nodes_mono (g : OGraph) (u v : Operation) :
    ∀ x ∈ g.nodesL, x ∈ (g.addEdge u v).nodesL := by
  intro x hx
  exact addNodeOp_nodes_mono _ v _ (addNodeOp_nodes_mono g u x hx)

lemma addEdge_mem_left (g : OGraph) (u v : Operation) : u ∈ (g.addEdge u v).nodesL :=
  addNodeOp_nodes_mono _ v u (addNodeOp_mem g u)

lemma addEdge_mem_right (g : OGraph) (u v : Operation) : v ∈ (g.addEdge u v).nodesL :=
  addNodeOp_mem _ v

lemma addEdge_edges_mono (g : OGraph) (u v : Operation) :
    ∀ e ∈ g.edges, e ∈ (g.addEdge u v).edges := by
  intro e he
  rw [addEdge_edges]
  exact List.mem_append_left _ he

lemma addEdge_new_edge (g : OGraph) (u v : Operation) : (u, v) ∈ (g.addEdge u v).edges := by
  rw [addEdge_edges]
  exact List.mem_append_right _ (by simp)

/-- Reachability in the operation graph along directed edges. -/
def Reach (og : OGraph) (a b : Operation) : Prop :=
  Relation.ReflTransGen (fun x y => (x, y) ∈ og.edges) a b

lemma Reach_mono {og og' : OGraph} (hsub : ∀ e ∈ og.edges, e ∈ og'.edges)
    {a b : Operation} (h : Reach og a b) : Reach og' a b :=
  Relation.ReflTransGen.mono (fun x y hxy => hsub (x, y) hxy) h

lemma inDeg_eq_zero_iff (g : OGraph) (op : Operation) :
    g.inDeg op = 0 ↔ ∀ e ∈ g.edges, e.2 ≠ op := by
  unfold OGraph.inDeg
  rw [List.countP_eq_zero]
  constructor
  · intro h e he
    have := h e he
    simpa using this
  · intro h e he
    simpa using h e he

lemma isDownload_not_isInitOp (op : Operation) (h : op.isDownload = true) :
    op.isInitOp = false := by
  cases op <;> simp_all [Operation.isDownload, Operation.isInitOp]

/-- The global invariant of the operation graph during compilation: no
`InitOperation` occurs, edges are closed over the node list, the node list
has no duplicates, every in-degree-0 operation is a `Download`, and every
operation is reachable from some in-degree-0 operation. -/
def OInv (og : OGraph) : Prop :=
  (∀ op ∈ og.nodesL, op.isInitOp = false) ∧
  (∀ e ∈ og.edges, e.1 ∈ og.nodesL ∧ e.2 ∈ og.nodesL) ∧
  og.nodesL.Nodup ∧
  (∀ op ∈ og.nodesL, og.inDeg op = 0 → op.isDownload = true) ∧
  (∀ op ∈ og.nodesL, ∃ r ∈ og.nodesL, og.inDeg r = 0 ∧ Reach og r op)

lemma OInv_addNodeOp (og : OGraph) (op : Operation) (hI : OInv og)
    (hdl : op.isDownload = true) : OInv (og.addNodeOp op) := by
  obtain ⟨h1, h2, h3, h4, h5⟩ := hI
  by_cases hmem : op ∈ og.nodesL
  · simpa [OGraph.addNodeOp, hmem] using ⟨h1, h2, h3, h4, h5⟩
  · have hnodes : (og.addNodeOp op).nodesL = og.nodesL ++ [op] := by
      simp [OGraph.addNodeOp, hmem]
    have hedges := addNodeOp_edges og op
    have hdeg : ∀ x, (og.addNodeOp op).inDeg x = og.inDeg x := by
      intro x; unfold OGraph.inDeg; rw [hedges]
    have hopdeg : og.inDeg op = 0 := by
      rw [inDeg_eq_zero_iff]
      intro e he hcon
      exact hmem (hcon ▸ (h2 e he).2)
    refine ⟨?_, ?_, ?_, ?_, ?_⟩
    · intro x hx
      rw [hnodes] at hx
      rcases List.mem_append.mp hx with hx | hx
      · exact h1 x hx
      · simp at hx
        subst hx
        exact isDownload_not_isInitOp x hdl
    · intro e he
      rw [hedges] at he
      obtain ⟨ha, hb⟩ := h2 e he
      rw [hnodes]
      exact ⟨List.mem_append_left _ ha, List.mem_append_left _ hb⟩
    · rw [hnodes]
      refine List.Nodup.append h3 (by simp) ?_
      intro a ha hb
      simp at hb
      subst hb
      exact hmem ha
    · intro x hx _
      rw [hnodes] at hx
      rcases List.mem_append.mp hx with hx | hx
      · exact h4 x hx (by rw [← hdeg x]; assumption)
      · simp at hx; subst hx; exact hdl
    · intro x hx
      rw [hnodes] at hx
      rcases List.mem_append.mp hx with hx | hx
      · obtain ⟨r, hr, hrd, hreach⟩ := h5 x hx
        exact ⟨r, by rw [hnodes]; exact List.mem_append_left _ hr, by rw [hdeg]; exact hrd,
          Reach_mono (by rw [hedges]; exact fun e he => he) hreach⟩
      · simp at hx; subst hx
        exact ⟨x, by rw [hnodes]; simp, by rw [hdeg]; exact hopdeg, Relation.ReflTransGen.refl⟩

lemma OInv_addEdge (og : OGraph) (u v : Operation) (hI : OInv og)
    (hu : u ∈ og.nodesL) (hvD : v.isDownload = false) (hvI : v.isInitOp = false) :
    OInv (og.addEdge u v) := by
  obtain ⟨h1, h2, h3, h4, h5⟩ := hI
  have hnodes1 : (og.addNodeOp u) = og := by simp [OGraph.addNodeOp, hu]
  have hedges := addEdge_edges og u v
  have hvmem : v ∈ (og.addEdge u v).nodesL := addEdge_mem_right og u v
  have humem : u ∈ (og.addEdge u v).nodesL := addEdge_mem_left og u v
  have hnodes : (og.addEdge u v).nodesL = og.nodesL ∨
      ((og.addEdge u v).nodesL = og.nodesL ++ [v] ∧ v ∉ og.nodesL) := by
    unfold OGraph.addEdge
    rw [hnodes1]
    by_cases hv : v ∈ og.nodesL
    · left; simp [OGraph.addNodeOp, hv]
    · right; exact ⟨by simp [OGraph.addNodeOp, hv], hv⟩
  have hnmono : ∀ x ∈ og.nodesL, x ∈ (og.addEdge u v).nodesL := addEdge_nodes_mono og u v
  have hdeg : ∀ x, (og.addEdge u v).inDeg x = og.inDeg x + (if v = x then 1 else 0) := by
    intro x
    unfold OGraph.inDeg
    rw [hedges, List.countP_append, List.countP_cons, List.countP_nil]
    by_cases hvx : v = x <;> simp [hvx]
  have hdeg_zero : ∀ x, (og.addEdge u v).inDeg x = 0 → og.inDeg x = 0 ∧ v ≠ x := by
    intro x hx
    rw [hdeg] at hx
    constructor
    · omega
    · intro hvx
      rw [if_pos hvx] at hx
      omega
  have hmemnodes : ∀ x ∈ (og.addEdge u v).nodesL, x ∈ og.nodesL ∨ x = v := by
    intro x hx
    rcases hnodes with hn | ⟨hn, _⟩
    · left; rwa [hn] at hx
    · rw [hn] at hx
      rcases List.mem_append.mp hx with hx | hx
      · left; exact hx
      · right; simpa using hx
  refine ⟨?_, ?_, ?_, ?_, ?_⟩
  · intro x hx
    rcases hmemnodes x hx with hx | hx
    · exact h1 x hx
    · subst hx; exact hvI
  · intro e he
    rw [hedges] at he
    rcases List.mem_append.mp he with he | he
    · obtain ⟨ha, hb⟩ := h2 e he
      exact ⟨hnmono _ ha, hnmono _ hb⟩
    · simp at he
      subst he
      exact ⟨humem, hvmem⟩
  · rcases hnodes with hn | ⟨hn, hv⟩
    · rwa [hn]
    · rw [hn]
      refine List.Nodup.append h3 (by simp) ?_
      intro a ha hb
      simp at hb
      subst hb
      exact hv ha
  · intro x hx hdx
    obtain ⟨hx0, hvx⟩ := hdeg_zero x hdx
    rcases hmemnodes x hx with hx | hx
    · exact h4 x hx hx0
    · exact absurd hx.symm hvx
  · intro x hx
    have hroot : ∀ y ∈ og.nodesL, ∃ r ∈ (og.addEdge u v).nodesL,
        (og.addEdge u v).inDeg r = 0 ∧ Reach (og.addEdge u v) r y := by
      intro y hy
      obtain ⟨r, hr, hrd, hreach⟩ := h5 y hy
      have hrD := h4 r hr hrd
      have hrv : v ≠ r := by
        intro he
        rw [he] at hvD
        rw [hvD] at hrD
        exact Bool.false_ne_true hrD
      refine ⟨r, hnmono _ hr, ?_, Reach_mono (addEdge_edges_mono og u v) hreach⟩
      rw [hdeg, if_neg hrv, hrd]
    rcases hmemnodes x hx with hx | hx
    · exact hroot x hx
    · rw [hx]
      obtain ⟨r, hr, hrd, hreach⟩ := hroot u hu
      exact ⟨r, hr, hrd, Relation.ReflTransGen.tail hreach (addEdge_new_edge og u v)⟩

/-! Lemmas about the loop helpers of `from_nodes`. -/

lemma propagateLast_values {P : Operation → Prop} (node : Node) :
    ∀ (l : List Node) (last : List (Node × Operation)),
      (∀ p ∈ last, P p.2) → ∀ p ∈ propagateLast node l last, P p.2 := by
  intro l
  induction l with
  | nil => intro last h; exact h
  | cons q rest ih =>
    intro last h
    cases hq : alookup last q with
    | none => simpa [propagateLast, hq] using ih last h
    | some op =>
      have hop : P op := h (q, op) (alookup_mem _ _ _ hq)
      simpa [propagateLast, hq] using ih _ (aupsert_forall _ _ _ h hop)

lemma tarFold_edges_mono (node : Node) (enc : String) :
    ∀ (l : List Node) (ops : OGraph) (cur : Operation) (e : Operation × Operation),
      e ∈ ops.edges → e ∈ (tarFold node enc l ops cur).1.edges := by
  intro l
  induction l with
  | nil => intro ops cur e he; simpa [tarFold] using he
  | cons s rest ih =>
    intro ops cur e he
    by_cases hc : enc = "application/x-tar" ∧ tarDiff s = true
    · simp only [tarFold, if_pos hc]
      exact ih _ _ e (addEdge_edges_mono _ _ _ e he)
    · simp only [tarFold, if_neg hc]
      exact ih _ _ e he

lemma tarFold_nodes_mono (node : Node) (enc : String) :
    ∀ (l : List Node) (ops : OGraph) (cur : Operation) (x : Operation),
      x ∈ ops.nodesL → x ∈ (tarFold node enc l ops cur).1.nodesL := by
  intro l
  induction l with
  | nil => intro ops cur x hx; simpa [tarFold] using hx
  | cons s rest ih =>
    intro ops cur x hx
    by_cases hc : enc = "application/x-tar" ∧ tarDiff s = true
    · simp only [tarFold, if_pos hc]
      exact ih _ _ x (addEdge_nodes_mono _ _ _ x hx)
    · simp only [tarFold, if_neg hc]
      exact ih _ _ x hx

lemma tarFold_OInv (node : Node) (enc : String) :
    ∀ (l : List Node) (ops : OGraph) (cur : Operation), OInv ops → cur ∈ ops.nodesL →
      OInv (tarFold node enc l ops cur).1 ∧
      (tarFold node enc l ops cur).2 ∈ (tarFold node enc l ops cur).1.nodesL := by
  intro l
  induction l with
  | nil => intro ops cur hI hcur; simpa [tarFold] using ⟨hI, hcur⟩
  | cons s rest ih =>
    intro ops cur hI hcur
    by_cases hc : enc = "application/x-tar" ∧ tarDiff s = true
    · simp only [tarFold, if_pos hc]
      exact ih _ _ (OInv_addEdge ops cur (Operation.generic node) hI hcur rfl rfl)
        (addEdge_mem_right _ _ _)
    · simp only [tarFold, if_neg hc]
      exact ih _ _ hI hcur

lemma tarFold_first (node : Node) (enc : String) :
    ∀ (l : List Node) (ops : OGraph) (cur : Operation),
      enc = "application/x-tar" → (∃ s ∈ l, tarDiff s = true) →
      (cur, Operation.generic node) ∈ (tarFold node enc l ops cur).1.edges := by
  intro l
  induction l with
  | nil =>
    intro ops cur _ hex
    simp at hex
  | cons s rest ih =>
    intro ops cur henc hex
    by_cases hq : tarDiff s = true
    · have hc : enc = "application/x-tar" ∧ tarDiff s = true := ⟨henc, hq⟩
      simp only [tarFold, if_pos hc]
      exact tarFold_edges_mono node enc rest _ _ _
        (addEdge_new_edge ops cur (Operation.generic node))
    · have hex' : ∃ t ∈ rest, tarDiff t = true := by
        rcases hex with ⟨t, ht, hqt⟩
        rcases List.mem_cons.mp ht with h | h
        · exact absurd (h ▸ hqt) hq
        · exact ⟨t, h, hqt⟩
      have hc : ¬(enc = "application/x-tar" ∧ tarDiff s = true) := fun hh => hq hh.2
      simp only [tarFold, if_neg hc]
      exact ih _ _ henc hex'

lemma tarFold_selfloop (node : Node) (enc : String) :
    ∀ (l : List Node) (ops : OGraph) (cur : Operation),
      enc = "application/x-tar" → 2 ≤ (l.filter tarDiff).length →
      (Operation.generic node, Operation.generic node) ∈
        (tarFold node enc l ops cur).1.edges := by
  intro l
  induction l with
  | nil =>
    intro ops cur _ hlen
    simp [List.filter] at hlen
  | cons s rest ih =>
    intro ops cur henc hlen
    by_cases hq : tarDiff s = true
    · have hlen' : 1 ≤ (rest.filter tarDiff).length := by
        rw [List.filter_cons, if_pos hq] at hlen
        simpa using hlen
      have hex : ∃ t ∈ rest, tarDiff t = true := by
        cases hf : rest.filter tarDiff with
        | nil => rw [hf] at hlen'; simp at hlen'
        | cons a tl =>
          have ha : a ∈ rest.filter tarDiff := by rw [hf]; simp
          obtain ⟨haa, hab⟩ := List.mem_filter.mp ha
          exact ⟨a, haa, hab⟩
      have hc : enc = "application/x-tar" ∧ tarDiff s = true := ⟨henc, hq⟩
      simp only [tarFold, if_pos hc]
      exact tarFold_first node enc rest _ _ henc hex
    · have hlen' : 2 ≤ (rest.filter tarDiff).length := by
        rw [List.filter_cons, if_neg hq] at hlen
        exact hlen
      have hc : ¬(enc = "application/x-tar" ∧ tarDiff s = true) := fun hh => hq hh.2
      simp only [tarFold, if_neg hc]
      exact ih _ _ henc hlen'

lemma mergeSources_mono (mop : Operation) :
    ∀ (l : List Node) (ops : OGraph) (last : List (Node × Operation))
      (res : OGraph × List (Node × Operation)),
      mergeSources mop l ops last = .ok res →
      (∀ e ∈ ops.edges, e ∈ res.1.edges) ∧ (∀ x ∈ ops.nodesL, x ∈ res.1.nodesL) := by
  intro l
  induction l with
  | nil =>
    intro ops last res h
    simp only [mergeSources, Except.ok.injEq] at h
    subst h
    exact ⟨fun e he => he, fun x hx => hx⟩
  | cons p rest ih =>
    intro ops last res h
    cases hlop : alookup last p with
    | none => simp [mergeSources, hlop] at h
    | some lop =>
      simp only [mergeSources, hlop] at h
      obtain ⟨hE, hN⟩ := ih _ _ _ h
      exact ⟨fun e he => hE e (addEdge_edges_mono _ _ _ e he),
        fun x hx => hN x (addEdge_nodes_mono _ _ _ x hx)⟩

lemma mergeSources_ok (mop : Operation) :
    ∀ (l : List Node) (ops : OGraph) (last : List (Node × Operation)),
      (∀ p ∈ l, (alookup last p).isSome) →
      ∃ res, mergeSources mop l ops last = .ok res := by
  intro l
  induction l with
  | nil => intro ops last _; exact ⟨(ops, last), rfl⟩
  | cons p rest ih =>
    intro ops last hsome
    have hp := hsome p (by simp)
    obtain ⟨lop, hlop⟩ := Option.isSome_iff_exists.mp hp
    have hsome' : ∀ q ∈ rest, (alookup (aupsert last p mop) q).isSome := fun q hq =>
      alookup_isSome_aupsert _ _ _ _ (hsome q (List.mem_cons_of_mem _ hq))
    obtain ⟨res, hres⟩ := ih (ops.addEdge lop mop) (aupsert last p mop) hsome'
    exact ⟨res, by simp [mergeSources, hlop, hres]⟩

lemma mergeSources_edge (mop : Operation) :
    ∀ (l : List Node) (ops : OGraph) (last : List (Node × Operation))
      (res : OGraph × List (Node × Operation)),
      mergeSources mop l ops last = .ok res →
      l.Nodup →
      ∀ n vn, n ∈ l → alookup last n = some vn →
      (vn, mop) ∈ res.1.edges := by
  intro l
  induction l with
  | nil =>
    intro ops last res _ _ n vn hn
    simp at hn
  | cons p rest ih =>
    intro ops last res h hnd n vn hn hvn
    obtain ⟨hp, hndr⟩ := List.nodup_cons.mp hnd
    cases hlop : alookup last p with
    | none => simp [mergeSources, hlop] at h
    | some lop =>
      simp only [mergeSources, hlop] at h
      rcases List.mem_cons.mp hn with hn | hn
      · subst hn
        rw [hvn] at hlop
        have hvl : vn = lop := by injection hlop
        subst hvl
        exact (mergeSources_mono mop _ _ _ _ h).1 _ (addEdge_new_edge ops vn mop)
      · have hne : n ≠ p := fun he => hp (he ▸ hn)
        have hvn' : alookup (aupsert last p mop) n = some vn := by
          rw [alookup_aupsert_ne _ _ _ _ hne]
          exact hvn
        exact ih _ _ _ h hndr n vn hn hvn'

lemma mergeSources_StInv (mop : Operation) (hmD : mop.isDownload = false)
    (hmI : mop.isInitOp = false) :
    ∀ (l : List Node) (ops : OGraph) (last : List (Node × Operation))
      (res : OGraph × List (Node × Operation)),
      mergeSources mop l ops last = .ok res →
      OInv ops → (∀ p ∈ last, p.2 ∈ ops.nodesL) →
      OInv res.1 ∧ (∀ p ∈ res.2, p.2 ∈ res.1.nodesL) ∧
      (l ≠ [] → mop ∈ res.1.nodesL) := by
  intro l
  induction l with
  | nil =>
    intro ops last res h hI hL
    simp only [mergeSources, Except.ok.injEq] at h
    subst h
    exact ⟨hI, hL, fun hc => absurd rfl hc⟩
  | cons p rest ih =>
    intro ops last res h hI hL
    cases hlop : alookup last p with
    | none => simp [mergeSources, hlop] at h
    | some lop =>
      simp only [mergeSources, hlop] at h
      have hlopmem : lop ∈ ops.nodesL := hL (p, lop) (alookup_mem _ _ _ hlop)
      have hI' := OInv_addEdge ops lop mop hI hlopmem hmD hmI
      have hmop : mop ∈ (ops.addEdge lop mop).nodesL := addEdge_mem_right _ _ _
      have hL' : ∀ q ∈ aupsert last p mop, q.2 ∈ (ops.addEdge lop mop).nodesL :=
        aupsert_forall _ _ _ (fun q hq => addEdge_nodes_mono _ _ _ _ (hL q hq)) hmop
      obtain ⟨rI, rL, _⟩ := ih _ _ _ h hI' hL'
      refine ⟨rI, rL, fun _ => ?_⟩
      exact (mergeSources_mono mop _ _ _ _ h).2 _ hmop

/-- One lowering step only appends to the operation graph, and it preserves
the global invariant, provided a FileSet with a non-empty `contained_in` is
only processed when it has structural predecessors (true along every BFS
order whose source is not such a FileSet). -/
lemma processNode_preserves (g : SGraph) (st : CState) (n : Node) (st' : CState)
    (h : processNode g st n = .ok st') :
    (∀ e ∈ st.ops.edges, e ∈ st'.ops.edges) ∧
    (∀ x ∈ st.ops.nodesL, x ∈ st'.ops.nodesL) ∧
    (OInv st.ops → (∀ p ∈ st.last, p.2 ∈ st.ops.nodesL) →
      (∀ (fu : String) (fpu : Option String) (fenc : String) (fcin : List String),
        n = Node.fileSet fu fpu fenc fcin → fcin ≠ [] → g.predecessors n ≠ []) →
      OInv st'.ops ∧ (∀ p ∈ st'.last, p.2 ∈ st'.ops.nodesL)) := by
  cases n with
  | metadata u =>
    simp only [processNode, Except.ok.injEq] at h
    subst h
    exact ⟨fun e he => he, fun x hx => hx,
      fun hI hL _ => ⟨hI, propagateLast_values _ _ _ hL⟩⟩
  | recordSet u pu =>
    simp only [processNode, Except.ok.injEq] at h
    subst h
    exact ⟨fun e he => he, fun x hx => hx,
      fun hI hL _ => ⟨hI, propagateLast_values _ _ _ hL⟩⟩
  | fileObject u pu url enc cin =>
    simp only [processNode] at h
    have hId : OInv st.ops → OInv (st.ops.addNodeOp
        (Operation.download (Node.fileObject u pu url enc cin) url)) :=
      fun hI => OInv_addNodeOp st.ops _ hI rfl
    have hdm := addNodeOp_mem st.ops
      (Operation.download (Node.fileObject u pu url enc cin) url)
    split at h
    · simp only [Except.ok.injEq] at h
      subst h
      refine ⟨?_, ?_, ?_⟩
      · intro e he
        exact addEdge_edges_mono _ _ _ e (tarFold_edges_mono _ _ _ _ _ e
          (by rw [addNodeOp_edges]; exact he))
      · intro x hx
        exact addEdge_nodes_mono _ _ _ x (tarFold_nodes_mono _ _ _ _ _ x
          (addNodeOp_nodes_mono _ _ x hx))
      · intro hI hL _
        have hL0 := propagateLast_values (Node.fileObject u pu url enc cin)
          (g.predecessors (Node.fileObject u pu url enc cin)) st.last hL
        obtain ⟨htI, htm⟩ := tarFold_OInv (Node.fileObject u pu url enc cin) enc
          (g.successors (Node.fileObject u pu url enc cin)) _ _ (hId hI) hdm
        refine ⟨OInv_addEdge _ _ _ htI htm rfl rfl, ?_⟩
        refine aupsert_forall _ _ _ (aupsert_forall _ _ _ (aupsert_forall _ _ _ ?_ ?_) ?_) ?_
        · intro p hp
          exact addEdge_nodes_mono _ _ _ _ (tarFold_nodes_mono _ _ _ _ _ _
            (addNodeOp_nodes_mono _ _ _ (hL0 p hp)))
        · exact addEdge_nodes_mono _ _ _ _ (tarFold_nodes_mono _ _ _ _ _ _ hdm)
        · exact addEdge_nodes_mono _ _ _ _ htm
        · exact addEdge_mem_right _ _ _
    · simp only [Except.ok.injEq] at h
      subst h
      refine ⟨?_, ?_, ?_⟩
      · intro e he
        exact tarFold_edges_mono _ _ _ _ _ e (by rw [addNodeOp_edges]; exact he)
      · intro x hx
        exact tarFold_nodes_mono _ _ _ _ _ x (addNodeOp_nodes_mono _ _ x hx)
      · intro hI hL _
        have hL0 := propagateLast_values (Node.fileObject u pu url enc cin)
          (g.predecessors (Node.fileObject u pu url enc cin)) st.last hL
        obtain ⟨htI, htm⟩ := tarFold_OInv (Node.fileObject u pu url enc cin) enc
          (g.successors (Node.fileObject u pu url enc cin)) _ _ (hId hI) hdm
        refine ⟨htI, ?_⟩
        refine aupsert_forall _ _ _ (aupsert_forall _ _ _ ?_ ?_) ?_
        · intro p hp
          exact tarFold_nodes_mono _ _ _ _ _ _ (addNodeOp_nodes_mono _ _ _ (hL0 p hp))
        · exact tarFold_nodes_mono _ _ _ _ _ _ hdm
        · exact htm
  | fileSet u pu enc cin =>
    simp only [processNode] at h
    split at h
    · simp only [Except.ok.injEq] at h
      subst h
      exact ⟨fun e he => he, fun x hx => hx,
        fun hI hL _ => ⟨hI, propagateLast_values _ _ _ hL⟩⟩
    · rename_i hce
      cases hm : mergeSources (Operation.generic (Node.fileSet u pu enc cin))
          (g.predecessors (Node.fileSet u pu enc cin)) st.ops
          (propagateLast (Node.fileSet u pu enc cin)
            (g.predecessors (Node.fileSet u pu enc cin)) st.last) with
      | error e => simp [hm, bind, Except.bind] at h
      | ok res =>
        simp only [hm, bind, Except.bind, Except.ok.injEq] at h
        subst h
        obtain ⟨hmE, hmN⟩ := mergeSources_mono _ _ _ _ _ hm
        refine ⟨hmE, hmN, ?_⟩
        intro hI hL hfs
        have hL0 := propagateLast_values (Node.fileSet u pu enc cin)
          (g.predecessors (Node.fileSet u pu enc cin)) st.last hL
        have hcne : cin ≠ [] := by
          cases cin
          · simp at hce
          · simp
        have hpne := hfs u pu enc cin rfl hcne
        obtain ⟨hrI, hrL, hrm⟩ :=
          mergeSources_StInv (Operation.generic (Node.fileSet u pu enc cin)) rfl rfl
            _ _ _ _ hm hI hL0
        exact ⟨hrI, aupsert_forall _ _ _ hrL (hrm hpne)⟩
  | field u pu src hsf =>
    cases src with
    | none =>
      simp only [processNode, Except.ok.injEq] at h
      subst h
      exact ⟨fun e he => he, fun x hx => hx,
        fun hI hL _ => ⟨hI, propagateLast_values _ _ _ hL⟩⟩
    | some s =>
      cases hsf with
      | true =>
        simp only [processNode, Except.ok.injEq] at h
        subst h
        exact ⟨fun e he => he, fun x hx => hx,
          fun hI hL _ => ⟨hI, propagateLast_values _ _ _ hL⟩⟩
      | false =>
        simp only [processNode] at h
        split at h
        · simp only [Except.ok.injEq] at h
          subst h
          exact ⟨fun e he => he, fun x hx => hx,
            fun hI hL _ => ⟨hI, propagateLast_values _ _ _ hL⟩⟩
        · cases hhead : (g.predecessors (Node.field u pu (some s) false)).head? with
          | none => simp [hhead] at h
          | some pred =>
            simp only [hhead] at h
            cases hlop : alookup (propagateLast (Node.field u pu (some s) false)
                (g.predecessors (Node.field u pu (some s) false)) st.last) pred with
            | none => simp [hlop] at h
            | some lop =>
              simp only [hlop] at h
              cases hA : g.attrOf (Node.field u pu (some s) false) with
              | error e => simp [hA, bind, Except.bind] at h
              | ok pn0 =>
                simp only [hA, bind, Except.bind] at h
                have hbase : OInv st.ops → (∀ p ∈ st.last, p.2 ∈ st.ops.nodesL) →
                    OInv (st.ops.addEdge lop
                        (Operation.readField (Node.field u pu (some s) false))) ∧
                    (∀ p ∈ propagateLast (Node.field u pu (some s) false)
                        (g.predecessors (Node.field u pu (some s) false)) st.last,
                      p.2 ∈ st.ops.nodesL) := by
                  intro hI hL
                  have hL0 := propagateLast_values (Node.field u pu (some s) false)
                    (g.predecessors (Node.field u pu (some s) false)) st.last hL
                  have hlopmem : lop ∈ st.ops.nodesL :=
                    hL0 (pred, lop) (alookup_mem _ _ _ hlop)
                  exact ⟨OInv_addEdge _ _ _ hI hlopmem rfl rfl, hL0⟩
                cases pn0 with
                | none =>
                  simp only [Except.ok.injEq] at h
                  subst h
                  refine ⟨fun e he => addEdge_edges_mono _ _ _ e he,
                    fun x hx => addEdge_nodes_mono _ _ _ x hx, ?_⟩
                  intro hI hL _
                  obtain ⟨hI1, hL0⟩ := hbase hI hL
                  refine ⟨hI1, aupsert_forall _ _ _ ?_ (addEdge_mem_right _ _ _)⟩
                  intro p hp
                  exact addEdge_nodes_mono _ _ _ _ (hL0 p hp)
                | some p =>
                  simp only at h
                  split at h
                  · -- the parent is a Field
                    cases hB : g.attrOf p with
                    | error e => simp [hB, bind, Except.bind] at h
                    | ok pn1 =>
                      simp only [hB, bind, Except.bind] at h
                      cases pn1 with
                      | none =>
                        simp only [Except.ok.injEq] at h
                        subst h
                        refine ⟨fun e he => addEdge_edges_mono _ _ _ e
                            (addEdge_edges_mono _ _ _ e he),
                          fun x hx => addEdge_nodes_mono _ _ _ x
                            (addEdge_nodes_mono _ _ _ x hx), ?_⟩
                        intro hI hL _
                        obtain ⟨hI1, hL0⟩ := hbase hI hL
                        have hI2 := OInv_addEdge _ _ (Operation.generic p) hI1
                          (addEdge_mem_right _ _ _) rfl rfl
                        refine ⟨hI2, ?_⟩
                        refine aupsert_forall _ _ _ (aupsert_forall _ _ _ ?_ ?_) ?_
                        · intro q hq
                          exact addEdge_nodes_mono _ _ _ _
                            (addEdge_nodes_mono _ _ _ _ (hL0 q hq))
                        · exact addEdge_nodes_mono _ _ _ _ (addEdge_mem_right _ _ _)
                        · exact addEdge_mem_right _ _ _
                      | some r =>
                        simp only at h
                        split at h
                        · simp only [Except.ok.injEq] at h
                          subst h
                          refine ⟨fun e he => addEdge_edges_mono _ _ _ e
                              (addEdge_edges_mono _ _ _ e (addEdge_edges_mono _ _ _ e he)),
                            fun x hx => addEdge_nodes_mono _ _ _ x
                              (addEdge_nodes_mono _ _ _ x (addEdge_nodes_mono _ _ _ x hx)),
                            ?_⟩
                          intro hI hL _
                          obtain ⟨hI1, hL0⟩ := hbase hI hL
                          have hI2 := OInv_addEdge _ _ (Operation.generic p) hI1
                            (addEdge_mem_right _ _ _) rfl rfl
                          have hI3 := OInv_addEdge _ _ (Operation.groupRecordSet r) hI2
                            (addEdge_mem_right _ _ _) rfl rfl
                          refine ⟨hI3, ?_⟩
                          refine aupsert_forall _ _ _
                            (aupsert_forall _ _ _ (aupsert_forall _ _ _ ?_ ?_) ?_) ?_
                          · intro q hq
                            exact addEdge_nodes_mono _ _ _ _ (addEdge_nodes_mono _ _ _ _
                              (addEdge_nodes_mono _ _ _ _ (hL0 q hq)))
                          · exact addEdge_nodes_mono _ _ _ _ (addEdge_nodes_mono _ _ _ _
                              (addEdge_mem_right _ _ _))
                          · exact addEdge_nodes_mono _ _ _ _ (addEdge_mem_right _ _ _)
                          · exact addEdge_mem_right _ _ _
                        · simp only [Except.ok.injEq] at h
                          subst h
                          refine ⟨fun e he => addEdge_edges_mono _ _ _ e
                              (addEdge_edges_mono _ _ _ e he),
                            fun x hx => addEdge_nodes_mono _ _ _ x
                              (addEdge_nodes_mono _ _ _ x hx), ?_⟩
                          intro hI hL _
                          obtain ⟨hI1, hL0⟩ := hbase hI hL
                          have hI2 := OInv_addEdge _ _ (Operation.generic p) hI1
                            (addEdge_mem_right _ _ _) rfl rfl
                          refine ⟨hI2, ?_⟩
                          refine aupsert_forall _ _ _ (aupsert_forall _ _ _ ?_ ?_) ?_
                          · intro q hq
                            exact addEdge_nodes_mono _ _ _ _
                              (addEdge_nodes_mono _ _ _ _ (hL0 q hq))
                          · exact addEdge_nodes_mono _ _ _ _ (addEdge_mem_right _ _ _)
                          · exact addEdge_mem_right _ _ _
                  · -- the parent is not a Field
                    split at h
                    · simp only [Except.ok.injEq] at h
                      subst h
                      refine ⟨fun e he => addEdge_edges_mono _ _ _ e
                          (addEdge_edges_mono _ _ _ e he),
                        fun x hx => addEdge_nodes_mono _ _ _ x
                          (addEdge_nodes_mono _ _ _ x hx), ?_⟩
                      intro hI hL _
                      obtain ⟨hI1, hL0⟩ := hbase hI hL
                      have hI2 := OInv_addEdge _ _ (Operation.groupRecordSet p) hI1
                        (addEdge_mem_right _ _ _) rfl rfl
                      refine ⟨hI2, ?_⟩
                      refine aupsert_forall _ _ _ (aupsert_forall _ _ _ ?_ ?_) ?_
                      · intro q hq
                        exact addEdge_nodes_mono _ _ _ _
                          (addEdge_nodes_mono _ _ _ _ (hL0 q hq))
                      · exact addEdge_nodes_mono _ _ _ _ (addEdge_mem_right _ _ _)
                      · exact addEdge_mem_right _ _ _
                    · simp only [Except.ok.injEq] at h
                      subst h
                      refine ⟨fun e he => addEdge_edges_mono _ _ _ e he,
                        fun x hx => addEdge_nodes_mono _ _ _ x hx, ?_⟩
                      intro hI hL _
                      obtain ⟨hI1, hL0⟩ := hbase hI hL
                      refine ⟨hI1, aupsert_forall _ _ _ ?_ (addEdge_mem_right _ _ _)⟩
                      intro q hq
                      exact addEdge_nodes_mono _ _ _ _ (hL0 q hq)

lemma processList_split (g : SGraph) :
    ∀ (l1 : List Node) (n : Node) (l2 : List Node) (st stF : CState),
      processList g st (l1 ++ n :: l2) = .ok stF →
      ∃ st1 st2, processList g st l1 = .ok st1 ∧ processNode g st1 n = .ok st2 ∧
        processList g st2 l2 = .ok stF := by
  intro l1
  induction l1 with
  | nil =>
    intro n l2 st stF h
    rw [List.nil_append] at h
    cases hp : processNode g st n with
    | error e => simp [processList, hp] at h
    | ok st2 =>
      simp only [processList, hp] at h
      exact ⟨st, st2, rfl, hp, h⟩
  | cons m rest ih =>
    intro n l2 st stF h
    rw [List.cons_append] at h
    cases hp : processNode g st m with
    | error e => simp [processList, hp] at h
    | ok stm =>
      simp only [processList, hp] at h
      obtain ⟨st1, st2, h1, h2, h3⟩ := ih n l2 stm stF h
      exact ⟨st1, st2, by simp [processList, hp, h1], h2, h3⟩

lemma processList_preserves (g : SGraph) :
    ∀ (l : List Node) (st stF : CState),
      processList g st l = .ok stF →
      (∀ e ∈ st.ops.edges, e ∈ stF.ops.edges) ∧
      (∀ x ∈ st.ops.nodesL, x ∈ stF.ops.nodesL) ∧
      (OInv st.ops → (∀ p ∈ st.last, p.2 ∈ st.ops.nodesL) →
        (∀ n ∈ l, ∀ (fu : String) (fpu : Option String) (fenc : String) (fcin : List String),
          n = Node.fileSet fu fpu fenc fcin → fcin ≠ [] → g.predecessors n ≠ []) →
        OInv stF.ops ∧ (∀ p ∈ stF.last, p.2 ∈ stF.ops.nodesL)) := by
  intro l
  induction l with
  | nil =>
    intro st stF h
    simp only [processList, Except.ok.injEq] at h
    subst h
    exact ⟨fun e he => he, fun x hx => hx, fun hI hL _ => ⟨hI, hL⟩⟩
  | cons n rest ih =>
    intro st stF h
    cases hp : processNode g st n with
    | error e => simp [processList, hp] at h
    | ok st1 =>
      simp only [processList, hp] at h
      obtain ⟨pE, pN, pI⟩ := processNode_preserves g st n st1 hp
      obtain ⟨rE, rN, rI⟩ := ih st1 stF h
      refine ⟨fun e he => rE e (pE e he), fun x hx => rN x (pN x hx), ?_⟩
      intro hI hL hfs
      obtain ⟨hI1, hL1⟩ := pI hI hL (fun fu fpu fenc fcin he => hfs n (by simp) fu fpu fenc fcin he)
      exact rI hI1 hL1 (fun m hm => hfs m (List.mem_cons_of_mem _ hm))

/-! Characterization of the final attach-Init step and of `from_nodes`. -/

lemma countP_eq_one_of_nodup {α : Type} [DecidableEq α] :
    ∀ (l : List α) (a : α), l.Nodup → a ∈ l →
      l.countP (fun x => decide (x = a)) = 1 := by
  intro l
  induction l with
  | nil => intro a _ ha; simp at ha
  | cons b rest ih =>
    intro a hnd ha
    obtain ⟨hb, hndr⟩ := List.nodup_cons.mp hnd
    rw [List.countP_cons]
    rcases List.mem_cons.mp ha with ha | ha
    · subst ha
      have hz : rest.countP (fun x => decide (x = a)) = 0 := by
        rw [List.countP_eq_zero]
        intro x hx
        simp only [decide_eq_true_eq]
        intro he
        exact hb (he ▸ hx)
      simp [hz]
    · have hab : ¬(b = a) := fun he => hb (he ▸ ha)
      simp [ih a hndr ha, hab]

lemma addEdge_nodes_present (g : OGraph) (u v : Operation)
    (hu : u ∈ g.nodesL) (hv : v ∈ g.nodesL) : (g.addEdge u v).nodesL = g.nodesL := by
  show ((g.addNodeOp u).addNodeOp v).nodesL = g.nodesL
  have h1 : g.addNodeOp u = g := by simp [OGraph.addNodeOp, hu]
  rw [h1]
  simp [OGraph.addNodeOp, hv]

lemma fold_addEdge_present (iop : Operation) :
    ∀ (l : List Operation) (og : OGraph), iop ∈ og.nodesL → (∀ e ∈ l, e ∈ og.nodesL) →
      (l.foldl (fun gx e => gx.addEdge iop e) og).nodesL = og.nodesL ∧
      (l.foldl (fun gx e => gx.addEdge iop e) og).edges =
        og.edges ++ l.map (fun e => (iop, e)) := by
  intro l
  induction l with
  | nil => intro og _ _; simp
  | cons e rest ih =>
    intro og hiop hl
    have hem : e ∈ og.nodesL := hl e (by simp)
    have hn1 : (og.addEdge iop e).nodesL = og.nodesL := addEdge_nodes_present og iop e hiop hem
    have he1 : (og.addEdge iop e).edges = og.edges ++ [(iop, e)] := addEdge_edges og iop e
    obtain ⟨ihn, ihe⟩ := ih (og.addEdge iop e) (by rw [hn1]; exact hiop)
      (fun x hx => by rw [hn1]; exact hl x (List.mem_cons_of_mem _ hx))
    refine ⟨?_, ?_⟩
    · rw [List.foldl_cons, ihn, hn1]
    · rw [List.foldl_cons, ihe, he1, List.map_cons, List.append_assoc]
      rfl

lemma getEntryNodesOp_spec (og : OGraph) (e : Operation) :
    e ∈ getEntryNodesOp og ↔ e ∈ og.nodesL ∧ og.inDeg e = 0 := by
  simp [getEntryNodesOp, List.mem_filter]

lemma attachInit_struct (iop : Operation) (og : OGraph) (hfresh : iop ∉ og.nodesL)
    (hne : getEntryNodesOp og ≠ []) :
    (attachInit iop og).nodesL = og.nodesL ++ [iop] ∧
    (attachInit iop og).edges = og.edges ++ (getEntryNodesOp og).map (fun e => (iop, e)) := by
  unfold attachInit
  cases hE : getEntryNodesOp og with
  | nil => exact absurd hE hne
  | cons e rest =>
    have hErest : ∀ x ∈ getEntryNodesOp og, x ∈ og.nodesL :=
      fun x hx => ((getEntryNodesOp_spec og x).mp hx).1
    have hem : e ∈ og.nodesL := hErest e (by rw [hE]; simp)
    have hn1 : (og.addEdge iop e).nodesL = og.nodesL ++ [iop] := by
      show ((og.addNodeOp iop).addNodeOp e).nodesL = og.nodesL ++ [iop]
      have ha : og.addNodeOp iop = ⟨og.nodesL ++ [iop], og.edges⟩ := by
        simp [OGraph.addNodeOp, hfresh]
      rw [ha]
      have h2 : e ∈ (⟨og.nodesL ++ [iop], og.edges⟩ : OGraph).nodesL :=
        List.mem_append_left _ hem
      simp [OGraph.addNodeOp, h2]
    have he1 : (og.addEdge iop e).edges = og.edges ++ [(iop, e)] := addEdge_edges og iop e
    obtain ⟨ihn, ihe⟩ := fold_addEdge_present iop rest (og.addEdge iop e)
      (by rw [hn1]; exact List.mem_append_right _ (by simp))
      (fun x hx => by
        rw [hn1]
        exact List.mem_append_left _ (hErest x (by rw [hE]; exact List.mem_cons_of_mem _ hx)))
    rw [List.foldl_cons, ihn, ihe, hn1, he1, List.map_cons, List.append_assoc]
    exact ⟨rfl, rfl⟩

lemma fromNodes_ok (issues : List String) (m : Node) (g : SGraph) (cg : ComputationGraph)
    (h : fromNodes issues m g = .ok cg) :
    m ∈ g.keys ∧ ∃ st, processList g ⟨issues, [], ⟨[], []⟩⟩ (bfsOrder g m) = .ok st ∧
      cg = ⟨st.issues, attachInit (Operation.initOp m) st.ops⟩ := by
  unfold fromNodes at h
  split at h
  · cases hp : processList g ⟨issues, [], ⟨[], []⟩⟩ (bfsOrder g m) with
    | error e => simp [hp, bind, Except.bind] at h
    | ok st =>
      simp only [hp, bind, Except.bind, Except.ok.injEq] at h
      exact ⟨by assumption, st, rfl, h.symm⟩
  · simp at h

/-! Structural facts about the BFS order, used to discharge the FileSet
side condition: every processed node other than the source has at least one
structural predecessor. -/

lemma dedupAcc_subset {α : Type} [DecidableEq α] :
    ∀ (l seen : List α) (a : α), a ∈ dedupAcc seen l → a ∈ l := by
  intro l
  induction l with
  | nil => intro seen a ha; simp [dedupAcc] at ha
  | cons b rest ih =>
    intro seen a ha
    by_cases hb : b ∈ seen
    · simp only [dedupAcc, hb, if_pos, if_true, reduceIte] at ha
      exact List.mem_cons_of_mem _ (ih seen a ha)
    · simp only [dedupAcc, hb, if_neg, if_false, reduceIte] at ha
      rcases List.mem_cons.mp ha with ha | ha
      · exact ha ▸ List.mem_cons_self _ _
      · exact List.mem_cons_of_mem _ (ih _ a ha)

lemma dedupAcc_mem {α : Type} [DecidableEq α] :
    ∀ (l seen : List α) (a : α), a ∈ l → a ∉ seen → a ∈ dedupAcc seen l := by
  intro l
  induction l with
  | nil => intro seen a ha _; simp at ha
  | cons b rest ih =>
    intro seen a ha hseen
    by_cases hb : b ∈ seen
    · have hab : a ≠ b := fun he => hseen (he ▸ hb)
      have har : a ∈ rest := by
        rcases List.mem_cons.mp ha with h | h
        · exact absurd h hab
        · exact h
      simpa [dedupAcc, hb] using ih seen a har hseen
    · simp only [dedupAcc, hb, if_neg, if_false, reduceIte]
      by_cases hab : a = b
      · rw [hab]; exact List.mem_cons_self _ _
      · have har : a ∈ rest := by
          rcases List.mem_cons.mp ha with h | h
          · exact absurd h hab
          · exact h
        have hseen' : a ∉ b :: seen := by
          intro hc
          rcases List.mem_cons.mp hc with hc | hc
          · exact hab hc
          · exact hseen hc
        exact List.mem_cons_of_mem _ (ih _ a har hseen')

lemma successors_edge (g : SGraph) (nd x : Node) (h : x ∈ g.successors nd) :
    (nd, x) ∈ g.edges := by
  unfold SGraph.successors at h
  have hx := dedupAcc_subset _ _ _ h
  obtain ⟨e, he, hval⟩ := List.mem_filterMap.mp hx
  by_cases h1 : e.1 = nd
  · simp only [h1, if_pos, if_true, reduceIte, Option.some.injEq] at hval
    have : e = (nd, x) := by
      obtain ⟨e1, e2⟩ := e
      simp_all
    exact this ▸ he
  · simp [h1] at hval

lemma edge_pred_nonempty (g : SGraph) (nd x : Node) (h : (nd, x) ∈ g.edges) :
    g.predecessors x ≠ [] := by
  unfold SGraph.predecessors
  have hmem : nd ∈ g.edges.filterMap (fun e => if e.2 = x then some e.1 else none) :=
    List.mem_filterMap.mpr ⟨(nd, x), h, by simp⟩
  exact List.ne_nil_of_mem (dedupAcc_mem _ _ _ hmem (by simp))

lemma foldl_collect (l : List Node) :
    ∀ (acc : List Node × List Node) (x : Node),
      x ∈ (l.foldl (fun acc c => if c ∈ acc.1 then acc else (c :: acc.1, acc.2 ++ [c])) acc).2 →
      x ∈ acc.2 ∨ x ∈ l := by
  induction l with
  | nil => intro acc x hx; exact Or.inl hx
  | cons c rest ih =>
    intro acc x hx
    rw [List.foldl_cons] at hx
    by_cases hc : c ∈ acc.1
    · simp only [hc, if_pos, if_true, reduceIte] at hx
      rcases ih acc x hx with h | h
      · exact Or.inl h
      · exact Or.inr (List.mem_cons_of_mem _ h)
    · simp only [hc, if_neg, if_false, reduceIte] at hx
      rcases ih (c :: acc.1, acc.2 ++ [c]) x hx with h | h
      · rcases List.mem_append.mp h with h | h
        · exact Or.inl h
        · simp at h
          exact Or.inr (h ▸ List.mem_cons_self _ _)
      · exact Or.inr (List.mem_cons_of_mem _ h)

lemma bfsStep_next (g : SGraph) :
    ∀ (current visited next : List Node) (x : Node),
      x ∈ (bfsStep g visited next current).2 →
      x ∈ next ∨ ∃ nd, x ∈ g.successors nd := by
  intro current
  induction current with
  | nil => intro visited next x hx; exact Or.inl hx
  | cons n rest ih =>
    intro visited next x hx
    simp only [bfsStep] at hx
    rcases ih _ _ x hx with h | h
    · rcases foldl_collect _ _ _ h with h | h
      · exact Or.inl h
      · exact Or.inr ⟨n, h⟩
    · exact Or.inr h

lemma bfsLayersAux_pred (g : SGraph) (P : Node → Prop)
    (hsucc : ∀ nd x, x ∈ g.successors nd → P x) :
    ∀ (fuel : Nat) (visited current : List Node), (∀ c ∈ current, P c) →
      ∀ x ∈ (bfsLayersAux g fuel visited current).flatten, P x := by
  intro fuel
  induction fuel with
  | zero => intro visited current _ x hx; simp [bfsLayersAux] at hx
  | succ fuel ih =>
    intro visited current hcur x hx
    by_cases hce : current.isEmpty = true
    · simp [bfsLayersAux, hce] at hx
    · simp only [bfsLayersAux, hce, if_neg, if_false, Bool.false_eq_true, reduceIte,
        List.flatten_cons] at hx
      rcases List.mem_append.mp hx with h | h
      · exact hcur x h
      · refine ih _ _ ?_ x h
        intro c hc
        rcases bfsStep_next g current visited [] c hc with hcn | ⟨nd, hcn⟩
        · simp at hcn
        · exact hsucc nd c hcn

lemma bfsOrder_pred (g : SGraph) (m : Node) :
    ∀ x ∈ bfsOrder g m, x = m ∨ g.predecessors x ≠ [] := by
  intro x hx
  unfold bfsOrder bfsLayers at hx
  refine bfsLayersAux_pred g (fun y => y = m ∨ g.predecessors y ≠ []) ?_ _ _ _ ?_ x hx
  · intro nd y hy
    exact Or.inr (edge_pred_nonempty g nd y (successors_edge g nd y hy))
  · intro c hc
    simp at hc
    exact Or.inl hc

lemma OInv_empty : OInv ⟨[], []⟩ :=
  ⟨by simp, by simp, List.nodup_nil, by simp, by simp⟩

lemma foldl_addEdge_edges_mono (iop : Operation) :
    ∀ (l : List Operation) (og : OGraph) (e : Operation × Operation),
      e ∈ og.edges → e ∈ (l.foldl (fun gx x => gx.addEdge iop x) og).edges := by
  intro l
  induction l with
  | nil => intro og e he; exact he
  | cons x rest ih =>
    intro og e he
    rw [List.foldl_cons]
    exact ih _ e (addEdge_edges_mono _ _ _ e he)

lemma attachInit_edges_mono (iop : Operation) (og : OGraph) :
    ∀ e ∈ og.edges, e ∈ (attachInit iop og).edges := by
  intro e he
  exact foldl_addEdge_edges_mono iop _ og e he

/-- The attach step of `from_nodes`, on a nonempty operation graph
satisfying the compilation invariant: the fresh `Init` operation becomes the
unique in-degree-0 operation, every operation is reachable from it, and
every formerly in-degree-0 operation receives exactly one edge from it. -/
lemma attachInit_spec (og : OGraph) (m : Node) (hI : OInv og) (hne : og.nodesL ≠ []) :
    Operation.initOp m ∈ (attachInit (Operation.initOp m) og).nodesL ∧
    (∀ op ∈ (attachInit (Operation.initOp m) og).nodesL,
      ((attachInit (Operation.initOp m) og).inDeg op = 0 ↔ op = Operation.initOp m)) ∧
    (∀ op ∈ (attachInit (Operation.initOp m) og).nodesL,
      Reach (attachInit (Operation.initOp m) og) (Operation.initOp m) op) ∧
    (∀ op ∈ og.nodesL, og.inDeg op = 0 →
      (attachInit (Operation.initOp m) og).edges.countP
        (fun e => decide (e = (Operation.initOp m, op))) = 1) := by
  obtain ⟨h1, h2, h3, h4, h5⟩ := hI
  have hfresh : Operation.initOp m ∉ og.nodesL := by
    intro hmem
    have := h1 _ hmem
    simp [Operation.isInitOp] at this
  have hEnodup : (getEntryNodesOp og).Nodup := h3.filter _
  have hEne : getEntryNodesOp og ≠ [] := by
    obtain ⟨x, hx⟩ := List.exists_mem_of_ne_nil og.nodesL hne
    obtain ⟨r, hr, hrd, _⟩ := h5 x hx
    exact List.ne_nil_of_mem ((getEntryNodesOp_spec og r).mpr ⟨hr, hrd⟩)
  obtain ⟨hN, hEd⟩ := attachInit_struct (Operation.initOp m) og hfresh hEne
  have hdeg : ∀ x, (attachInit (Operation.initOp m) og).inDeg x =
      og.inDeg x + (getEntryNodesOp og).countP (fun e => decide (e = x)) := by
    intro x
    unfold OGraph.inDeg
    rw [hEd, List.countP_append, List.countP_map]
    congr 1
  have hdegIop : (attachInit (Operation.initOp m) og).inDeg (Operation.initOp m) = 0 := by
    rw [hdeg]
    have hz1 : og.inDeg (Operation.initOp m) = 0 := by
      rw [inDeg_eq_zero_iff]
      intro e he hc
      exact hfresh (hc ▸ (h2 e he).2)
    have hz2 : (getEntryNodesOp og).countP
        (fun e => decide (e = Operation.initOp m)) = 0 := by
      rw [List.countP_eq_zero]
      intro e he
      simp only [decide_eq_true_eq]
      intro hc
      exact hfresh (hc ▸ ((getEntryNodesOp_spec og e).mp he).1)
    rw [hz1, hz2]
  have hmemA : ∀ op, op ∈ (attachInit (Operation.initOp m) og).nodesL ↔
      op ∈ og.nodesL ∨ op = Operation.initOp m := by
    intro op; rw [hN]; simp
  refine ⟨?_, ?_, ?_, ?_⟩
  · rw [hN]; exact List.mem_append_right _ (by simp)
  · intro op hop
    rcases (hmemA op).mp hop with hmem | heq
    · have hne' : op ≠ Operation.initOp m := fun he => hfresh (he ▸ hmem)
      constructor
      · intro hz
        rw [hdeg] at hz
        have hz1 : og.inDeg op = 0 := by omega
        have hopE : op ∈ getEntryNodesOp og := (getEntryNodesOp_spec og op).mpr ⟨hmem, hz1⟩
        have hone : (getEntryNodesOp og).countP (fun e => decide (e = op)) = 1 :=
          countP_eq_one_of_nodup _ _ hEnodup hopE
        omega
      · intro he; exact absurd he hne'
    · rw [heq]
      simp [hdegIop]
  · intro op hop
    rcases (hmemA op).mp hop with hmem | heq
    · obtain ⟨r, hr, hrd, hreach⟩ := h5 op hmem
      have hrE : r ∈ getEntryNodesOp og := (getEntryNodesOp_spec og r).mpr ⟨hr, hrd⟩
      have hedge : (Operation.initOp m, r) ∈ (attachInit (Operation.initOp m) og).edges := by
        rw [hEd]
        exact List.mem_append_right _ (List.mem_map_of_mem _ hrE)
      have hreachA : Reach (attachInit (Operation.initOp m) og) r op :=
        Reach_mono (fun e he => by rw [hEd]; exact List.mem_append_left _ he) hreach
      exact Relation.ReflTransGen.trans (Relation.ReflTransGen.single hedge) hreachA
    · rw [heq]
      exact Relation.ReflTransGen.refl
  · intro op hmem hz
    have hopE : op ∈ getEntryNodesOp og := (getEntryNodesOp_spec og op).mpr ⟨hmem, hz⟩
    rw [hEd, List.countP_append]
    have hz1 : og.edges.countP (fun e => decide (e = (Operation.initOp m, op))) = 0 := by
      rw [List.countP_eq_zero]
      intro e he
      simp only [decide_eq_true_eq]
      intro hc
      exact hfresh (by rw [hc] at he; exact (h2 _ he).1)
    have hcomp : ((fun (e : Operation × Operation) =>
        decide (e = (Operation.initOp m, op))) ∘ (fun e => (Operation.initOp m, e))) =
        fun e => decide (e = op) := by
      funext e
      simp [Prod.ext_iff]
    have hz2 : ((getEntryNodesOp og).map (fun e => (Operation.initOp m, e))).countP
        (fun e => decide (e = (Operation.initOp m, op))) = 1 := by
      rw [List.countP_map, hcomp]
      exact countP_eq_one_of_nodup _ _ hEnodup hopE
    omega

/-- C2 as amended: whenever `from_nodes` (with a Metadata entry node)
produces a nonempty operation graph, that graph contains the `Init`
operation, `Init` is its unique in-degree-0 operation, every operation is
reachable from `Init`, and every operation that had in-degree 0 before the
attach step has exactly one direct edge from `Init`.  On an empty operation
graph no `Init` operation exists at all (see the counterexample). -/
theorem c2_amended (issues : List String) (m : Node) (g : SGraph) (cg : ComputationGraph)
    (hm : m.isMetadata = true)
    (h : fromNodes issues m g = .ok cg)
    (hne : cg.graph.nodesL ≠ []) :
    Operation.initOp m ∈ cg.graph.nodesL ∧
    (∀ op ∈ cg.graph.nodesL, (cg.graph.inDeg op = 0 ↔ op = Operation.initOp m)) ∧
    (∀ op ∈ cg.graph.nodesL, Reach cg.graph (Operation.initOp m) op) ∧
    (∀ st, processList g ⟨issues, [], ⟨[], []⟩⟩ (bfsOrder g m) = .ok st →
      ∀ op ∈ st.ops.nodesL, st.ops.inDeg op = 0 →
        cg.graph.edges.countP (fun e => decide (e = (Operation.initOp m, op))) = 1) := by
  obtain ⟨hkeys, st, hst, hcg⟩ := fromNodes_ok issues m g cg h
  have hfs : ∀ n ∈ bfsOrder g m, ∀ (fu : String) (fpu : Option String) (fenc : String)
      (fcin : List String), n = Node.fileSet fu fpu fenc fcin → fcin ≠ [] →
      g.predecessors n ≠ [] := by
    intro n hn fu fpu fenc fcin heq hc
    rcases bfsOrder_pred g m n hn with he | hp
    · rw [← he, heq] at hm
      simp [Node.isMetadata] at hm
    · exact hp
  obtain ⟨_, _, hInv⟩ := processList_preserves g (bfsOrder g m) _ st hst
  obtain ⟨hIst, _⟩ := hInv OInv_empty (by intro p hp; simp at hp) hfs
  have hstne : st.ops.nodesL ≠ [] := by
    intro hempty
    apply hne
    rw [hcg]
    show (attachInit (Operation.initOp m) st.ops).nodesL = []
    unfold attachInit getEntryNodesOp
    rw [hempty]
    simp [hempty]
  obtain ⟨hin, hiff, hreach, hcount⟩ := attachInit_spec st.ops m hIst hstne
  subst hcg
  refine ⟨hin, hiff, hreach, ?_⟩
  intro st' hst' op hop hz
  have hsame : st = st' := by
    have := hst.symm.trans hst'
    injection this
  subst hsame
  exact hcount op hop hz

/-- C10: for every compilation and every tar-encoded FileObject in the BFS
order with at least two structural successors that are FileObjects/FileSets
of a different encoding, the compiled operation graph contains a self-loop
on the extraction sentinel: the sentinel `Operation(node=node)` is a frozen
dataclass value, so the second successor's sentinel equals the first's and
`add_edge(last_operation_for_node[node], operation)` links it to itself. -/
theorem c10_tar_selfloop (issues : List String) (m : Node) (g : SGraph)
    (cg : ComputationGraph) (u : String) (pu : Option String) (url : String)
    (cin : List String)
    (h : fromNodes issues m g = .ok cg)
    (hmem : Node.fileObject u pu url "application/x-tar" cin ∈ bfsOrder g m)
    (hq : 2 ≤ ((g.successors (Node.fileObject u pu url "application/x-tar" cin)).filter
      tarDiff).length) :
    (Operation.generic (Node.fileObject u pu url "application/x-tar" cin),
     Operation.generic (Node.fileObject u pu url "application/x-tar" cin)) ∈
      cg.graph.edges := by
  obtain ⟨hkeys, st, hst, hcg⟩ := fromNodes_ok issues m g cg h
  obtain ⟨l1, l2, horder⟩ := List.append_of_mem hmem
  rw [horder] at hst
  obtain ⟨st1, st2, h1, h2, h3⟩ := processList_split g l1 _ l2 _ _ hst
  have hsl := tarFold_selfloop (Node.fileObject u pu url "application/x-tar" cin)
    "application/x-tar" (g.successors (Node.fileObject u pu url "application/x-tar" cin))
    (st1.ops.addNodeOp
      (Operation.download (Node.fileObject u pu url "application/x-tar" cin) url))
    (Operation.download (Node.fileObject u pu url "application/x-tar" cin) url) rfl hq
  have hstep : ∀ e ∈ (tarFold (Node.fileObject u pu url "application/x-tar" cin)
      "application/x-tar" (g.successors (Node.fileObject u pu url "application/x-tar" cin))
      (st1.ops.addNodeOp
        (Operation.download (Node.fileObject u pu url "application/x-tar" cin) url))
      (Operation.download (Node.fileObject u pu url "application/x-tar" cin) url)).1.edges,
      e ∈ st2.ops.edges := by
    simp only [processNode] at h2
    split at h2 <;> simp only [Except.ok.injEq] at h2 <;> subst h2
    · intro e he; exact addEdge_edges_mono _ _ _ e he
    · intro e he; exact he
  have hmono2 := (processList_preserves g l2 st2 st h3).1
  rw [hcg]
  exact attachInit_edges_mono _ _ _ (hmono2 _ (hstep _ hsl))

/-- C7 as amended: (a) for every compilation and every tar-encoded
FileObject in the BFS order with at least one qualifying successor
(FileObject/FileSet of a different encoding), the compiled graph contains
the edge `Download → extraction sentinel`; (b) the sentinel is chained to
the successor's first operation only when the successor is a FileSet with a
non-empty `contained_in` processed while the FileObject's last operation is
the sentinel (its merge operation then receives an edge from the
sentinel); a FileObject successor's first operation (its `Download`) is
created as a fresh root with no edge from the sentinel (see the
counterexample). -/
theorem c7_amended :
    (∀ (issues : List String) (m : Node) (g : SGraph) (cg : ComputationGraph)
      (u : String) (pu : Option String) (url : String) (cin : List String),
      fromNodes issues m g = .ok cg →
      Node.fileObject u pu url "application/x-tar" cin ∈ bfsOrder g m →
      (∃ s ∈ g.successors (Node.fileObject u pu url "application/x-tar" cin),
        tarDiff s = true) →
      (Operation.download (Node.fileObject u pu url "application/x-tar" cin) url,
       Operation.generic (Node.fileObject u pu url "application/x-tar" cin)) ∈
        cg.graph.edges) ∧
    (∀ (g : SGraph) (st : CState) (su : String) (spu : Option String)
      (senc : String) (scin : List String) (n : Node),
      scin ≠ [] →
      (∀ p ∈ g.predecessors (Node.fileSet su spu senc scin),
        (alookup (propagateLast (Node.fileSet su spu senc scin)
          (g.predecessors (Node.fileSet su spu senc scin)) st.last) p).isSome) →
      n ∈ g.predecessors (Node.fileSet su spu senc scin) →
      alookup (propagateLast (Node.fileSet su spu senc scin)
        (g.predecessors (Node.fileSet su spu senc scin)) st.last) n =
        some (Operation.generic n) →
      ∃ st', processNode g st (Node.fileSet su spu senc scin) = .ok st' ∧
        (Operation.generic n, Operation.generic (Node.fileSet su spu senc scin)) ∈
          st'.ops.edges) := by
  constructor
  · intro issues m g cg u pu url cin h hmem hex
    obtain ⟨hkeys, st, hst, hcg⟩ := fromNodes_ok issues m g cg h
    obtain ⟨l1, l2, horder⟩ := List.append_of_mem hmem
    rw [horder] at hst
    obtain ⟨st1, st2, h1, h2, h3⟩ := processList_split g l1 _ l2 _ _ hst
    have hfirst := tarFold_first (Node.fileObject u pu url "application/x-tar" cin)
      "application/x-tar" (g.successors (Node.fileObject u pu url "application/x-tar" cin))
      (st1.ops.addNodeOp
        (Operation.download (Node.fileObject u pu url "application/x-tar" cin) url))
      (Operation.download (Node.fileObject u pu url "application/x-tar" cin) url) rfl hex
    have hstep : ∀ e ∈ (tarFold (Node.fileObject u pu url "application/x-tar" cin)
        "application/x-tar" (g.successors (Node.fileObject u pu url "application/x-tar" cin))
        (st1.ops.addNodeOp
          (Operation.download (Node.fileObject u pu url "application/x-tar" cin) url))
        (Operation.download (Node.fileObject u pu url "application/x-tar" cin) url)).1.edges,
        e ∈ st2.ops.edges := by
      simp only [processNode] at h2
      split at h2 <;> simp only [Except.ok.injEq] at h2 <;> subst h2
      · intro e he; exact addEdge_edges_mono _ _ _ e he
      · intro e he; exact he
    have hmono2 := (processList_preserves g l2 st2 st h3).1
    rw [hcg]
    exact attachInit_edges_mono _ _ _ (hmono2 _ (hstep _ hfirst))
  · intro g st su spu senc scin n hcin hsome hmem hlook
    have hce : scin.isEmpty = false := by
      cases scin
      · exact absurd rfl hcin
      · rfl
    obtain ⟨res, hres⟩ := mergeSources_ok (Operation.generic (Node.fileSet su spu senc scin))
      (g.predecessors (Node.fileSet su spu senc scin)) st.ops
      (propagateLast (Node.fileSet su spu senc scin)
        (g.predecessors (Node.fileSet su spu senc scin)) st.last) hsome
    have hnd : (g.predecessors (Node.fileSet su spu senc scin)).Nodup :=
      (dedupAcc_nodup _ []).1
    have hedge := mergeSources_edge (Operation.generic (Node.fileSet su spu senc scin))
      (g.predecessors (Node.fileSet su spu senc scin)) st.ops
      (propagateLast (Node.fileSet su spu senc scin)
        (g.predecessors (Node.fileSet su spu senc scin)) st.last) res hres hnd
      n (Operation.generic n) hmem hlook
    refine ⟨⟨st.issues, aupsert res.2 (Node.fileSet su spu senc scin)
      (Operation.generic (Node.fileSet su spu senc scin)), res.1⟩, ?_, hedge⟩
    simp [processNode, hce, hres, bind, Except.bind]

/-! Witness fixtures and witness theorems for the hypothesis-bearing claims. -/

/-- A first CSV FileObject extracted from the tar archive `fTar`. -/
def g1Csv : Node := .fileObject "G1" (some "M") "v1" "text/csv" ["F"]

/-- A second CSV FileObject extracted from the tar archive `fTar`. -/
def g2Csv : Node := .fileObject "G2" (some "M") "v2" "text/csv" ["F"]

/-- The structure graph for `[nodeM, fTar, g1Csv, g2Csv]`. -/
def c10graph : SGraph :=
  ⟨[(fTar, some nodeM), (nodeM, none), (g1Csv, some nodeM), (g2Csv, some nodeM)],
   [(nodeM, fTar), (fTar, g1Csv), (fTar, g2Csv)]⟩

/-- The operation graph compiled from `c10graph`, with the sentinel
self-loop. -/
def c10ops : OGraph :=
  ⟨[.download fTar "u", .generic fTar, .download g1Csv "v1", .readCsv g1Csv "v1",
    .download g2Csv "v2", .readCsv g2Csv "v2", .initOp nodeM],
   [(.download fTar "u", .generic fTar),
    (.generic fTar, .generic fTar),
    (.download g1Csv "v1", .readCsv g1Csv "v1"),
    (.download g2Csv "v2", .readCsv g2Csv "v2"),
    (.initOp nodeM, .download fTar "u"),
    (.initOp nodeM, .download g1Csv "v1"),
    (.initOp nodeM, .download g2Csv "v2")]⟩

/-- A FileSet contained in the tar archive `fTar`. -/
def fsS : Node := .fileSet "S" (some "M") "text/csv" ["F"]

/-- A tiny structure graph with the edge `fTar → fsS`. -/
def c7bGraph : SGraph := ⟨[(fTar, none), (fsS, none)], [(fTar, fsS)]⟩

/-- A compiler state in which `fTar`'s last operation is its sentinel. -/
def c7bState : CState := ⟨[], [(fTar, Operation.generic fTar)], ⟨[], []⟩⟩

/-- A compiler state for the nested-field witness. -/
def c8state : CState := ⟨[], [(nodeF, Operation.generic nodeF)], ⟨[], []⟩⟩

/-- C2 witness: the amended invariant instantiated on the end-to-end
scenario's compilation. -/
theorem c2_witness :
    Operation.initOp nodeM ∈ c1ops.nodesL ∧
    (∀ op ∈ c1ops.nodesL, (c1ops.inDeg op = 0 ↔ op = Operation.initOp nodeM)) ∧
    (∀ op ∈ c1ops.nodesL, Reach c1ops (Operation.initOp nodeM) op) := by
  have h := c2_amended [] nodeM c1graph ⟨[], c1ops⟩ (by decide) (by rfl) (by decide)
  exact ⟨h.1, h.2.1, h.2.2.1⟩

/-- C7 witness: part (a) on the `fTar`/`gCsv` compilation, part (b) on a
FileSet successor processed while the sentinel is the last operation. -/
theorem c7_witness :
    (Operation.download fTar "u", Operation.generic fTar) ∈ c7ops.edges ∧
    (∃ st', processNode c7bGraph c7bState fsS = .ok st' ∧
      (Operation.generic fTar, Operation.generic fsS) ∈ st'.ops.edges) := by
  constructor
  · exact c7_amended.1 [] nodeM c7graph ⟨[], c7ops⟩ "F" (some "M") "u" []
      (by rfl) (by decide) (by decide)
  · exact c7_amended.2 c7bGraph c7bState "S" (some "M") "text/csv" ["F"] fTar
      (by decide) (by decide) (by decide) (by decide)

/-- C8 witness: processing the doubly nested leaf field emits `ReadField`
chained to a single generic grouping operation and nothing else. -/
theorem c8_witness :
    processNode c8graph c8state fieldLeaf = .ok ⟨c8state.issues,
      aupsert (aupsert (propagateLast fieldLeaf (c8graph.predecessors fieldLeaf)
        c8state.last) fieldLeaf (Operation.readField fieldLeaf)) fieldP
        (Operation.generic fieldP),
      (c8state.ops.addEdge (Operation.generic nodeF)
        (Operation.readField fieldLeaf)).addEdge (Operation.readField fieldLeaf)
        (Operation.generic fieldP)⟩ := by
  exact (c8_amended c8graph c8state "R/q/p/f" (some "R/q/p") ⟨["F", "col"]⟩ fieldLeaf
    nodeF (Operation.generic nodeF) (by decide) (by rfl) (by decide) (by decide)).2.2
    fieldP fieldQ (by rfl) (by decide) (by rfl) (by decide)

/-- C10 witness: the compiled graph of the two-successor tar scenario
contains the sentinel self-loop. -/
theorem c10_witness :
    (Operation.generic fTar, Operation.generic fTar) ∈ c10ops.edges := by
  exact c10_tar_selfloop [] nodeM c10graph ⟨[], c10ops⟩ "F" (some "M") "u" []
    (by rfl) (by decide) (by decide)

end Croissant
